import Mathlib

set_option maxHeartbeats 1000000

/-! Shallow embedding of the lmap co-scheduler.

The embedding follows the three Rust source files:
* src/joblist.rs — job description loader (placement-string grammar);
* src/map.rs    — resource inventory (ProcMap), acquisition primitives and
                  the placement solver;
* src/main.rs   — the probe (`output_map`) and the run pipeline (`main`).

Rust `Result` values become `Except MapErr`; Rust panics (division by zero,
usize overflow, `unwrap`/`expect` on `None`, `unreachable!`) abort the
program, so they are modelled as dedicated `MapErr` constructors.  `HashMap`
collections, whose iteration order is deterministic within one build but
otherwise unspecified, are modelled as lists in iteration order; the theorems
quantify over arbitrary such orders. -/

/-- Errors and panics of the embedded program.  An `anyhow!` error is a
constructor carrying the data interpolated into its message. -/
inductive MapErr where
  /-- "Job is already taken" (Slot::acquire). -/
  | alreadyTaken
  /-- "No free slot on numa {id}" (Numa::acquire). -/
  | noFreeSlotOnNuma (id : Nat)
  /-- "No free slot on node {host}" (Node::acquire). -/
  | noFreeSlotOnNode (host : String)
  /-- "No room on Numa" (map_for_defined_size, on_each = true). -/
  | noRoomOnNuma
  /-- "No room on Node" (map_for_defined_size, on_each = true). -/
  | noRoomOnNode
  /-- "No room to alocate fixed on NUMA ({left} left)". -/
  | noRoomFixedNuma (left : Nat)
  /-- "No room to alocate fixed on NODE ({left} left)". -/
  | noRoomFixedNode (left : Nat)
  /-- "Not enough slots available to allocate {size} slots". -/
  | notEnoughSlots (size : Nat)
  /-- "No such locality specifier {loc}" (solver side). -/
  | noSuchLocality (loc : String)
  /-- "Failed to parse value for fixed alloc {ord}". -/
  | parseOrderFailed (ord : String)
  /-- Rust panic: usize division by zero (`remaining_slots / all_job_count`). -/
  | divByZeroPanic
  /-- Rust panic: usize subtraction overflow (`number_to_alloc -= 1` at 0). -/
  | usizeUnderflow
  /-- Rust panic: `unreachable!("All Each specifier has to provide a locality")`. -/
  | panicUnreachable
  /-- Rust panic: `.expect("Failed to retrieve slots")` in ProcMap::init. -/
  | panicExpect
  /-- Rust panic: `Option::unwrap` on `None`. -/
  | panicUnwrapNone
  /-- "Bad syntax in {s}" (Job::parse). -/
  | badSyntax (s : String)
  /-- "No such location specifier {l}" (Job::parse). -/
  | noSuchLocSpecifier (l : String)
  /-- "E job specifier requires a locality specifier" (Job::parse). -/
  | eRequiresLoc
  /-- `which("srun")` failed in main. -/
  | srunNotFound
  deriving DecidableEq, Repr

/-! ## Placement-string grammar (src/joblist.rs, Job::parse)

`Job::parse` applies the regex `([AE]|[0-9]+)([a-z]+)?` with
`Regex::captures`, i.e. an UNANCHORED leftmost search with leftmost-first
alternation, greedy `[0-9]+` and greedy optional `([a-z]+)?`.  The model
works on `List Char` and searches for the leftmost position at which
group 1 matches; group 2 is the maximal run of lowercase letters after it. -/

def isDigitChar (c : Char) : Bool := decide ('0' ≤ c) && decide (c ≤ '9')

def isLowerChar (c : Char) : Bool := decide ('a' ≤ c) && decide (c ≤ 'z')

/-- Try to match `([AE]|[0-9]+)([a-z]+)?` at the head of the suffix; returns
the two capture groups on success. -/
def matchAt : List Char → Option (List Char × Option (List Char))
  | [] => none
  | c :: rest =>
    if c = 'A' ∨ c = 'E' then
      let locChars := rest.takeWhile isLowerChar
      some ([c], if locChars.isEmpty then none else some locChars)
    else if isDigitChar c then
      let digits := c :: rest.takeWhile isDigitChar
      let after := rest.dropWhile isDigitChar
      let locChars := after.takeWhile isLowerChar
      some (digits, if locChars.isEmpty then none else some locChars)
    else none

/-- Leftmost match of the pattern in the string (Regex::captures). -/
def findMatch : List Char → Option (List Char × Option (List Char))
  | [] => none
  | c :: rest =>
    match matchAt (c :: rest) with
    | some r => some r
    | none => findMatch rest

/-- Job::parse on the raw map string: regex search, then locality validation,
then the E-requires-locality check, in that order. -/
def parsePlacement (s : List Char) : Except MapErr (List Char × Option (List Char)) :=
  match findMatch s with
  | none => .error (.badSyntax (String.mk s))
  | some (ord, loc) =>
    match loc with
    | some l =>
      if l = "numa".toList ∨ l = "slot".toList ∨ l = "node".toList then
        .ok (ord, some l)
      else
        .error (.noSuchLocSpecifier (String.mk l))
    | none =>
      if ord = ['E'] then .error .eRequiresLoc
      else .ok (ord, none)

/-- Raw YAML job element (struct Job of src/joblist.rs). -/
structure Job where
  map : String
  command : List String
  deriving DecidableEq, Repr

/-- Parsed sub-job (struct JobEntry of src/joblist.rs). -/
structure JobEntry where
  map : String
  order : String
  loc : Option String
  command : List String
  deriving DecidableEq, Repr

/-- JobEntry::from_job. -/
def JobEntry.from_job (j : Job) : Except MapErr JobEntry :=
  match parsePlacement j.map.toList with
  | .error e => .error e
  | .ok (ord, loc) =>
    .ok { map := j.map, order := String.mk ord, loc := loc.map String.mk,
          command := j.command }

/-- JobList::load after YAML decoding: parse each element in order, failing
on the first offending entry.  The JobList struct wraps a Vec; it is
modelled as the list of entries. -/
def jobListLoad : List Job → Except MapErr (List JobEntry)
  | [] => .ok []
  | j :: rest =>
    match JobEntry.from_job j with
    | .error e => .error e
    | .ok e =>
      match jobListLoad rest with
      | .error e2 => .error e2
      | .ok es => .ok (e :: es)

/-- JobEntry::loc_or_slot. -/
def JobEntry.loc_or_slot (j : JobEntry) : String := j.loc.getD "slot"

/-! ## The spec-side canonical grammar (for claim C7)

Second definition, written from the spec's words, to be compared with
`parsePlacement`: a canonical placement string is exactly `ord [loc]` with
`ord = "A" | "E" | [0-9]+` and `loc` one of `numa`, `slot`, `node`
(required when `ord = "E"`). -/

def locTok (l : List Char) : Bool :=
  decide (l = "numa".toList) || decide (l = "slot".toList) || decide (l = "node".toList)

/-- Spec-side grammar membership: the whole string is `ord [loc]`. -/
def specCanonical : List Char → Bool
  | [] => false
  | c :: rest =>
    if c = 'A' then rest.isEmpty || locTok rest
    else if c = 'E' then locTok rest
    else if isDigitChar c then
      let l := rest.dropWhile isDigitChar
      l.isEmpty || locTok l
    else false

/-! ## Inventory data model (src/map.rs) -/

/-- struct Slot. -/
structure Slot where
  rank : Int
  pu : List Nat
  job : Option Nat
  deriving DecidableEq, Repr

/-- struct Numa. -/
structure Numa where
  id : Nat
  slots : List Slot
  deriving DecidableEq, Repr

/-- struct Node.  The `numas` HashMap is modelled as the list of its values
in iteration order; ids are unique per node by construction. -/
structure Node where
  host : String
  numas : List Numa
  deriving DecidableEq, Repr

/-- struct ProcMap.  The `nodes` HashMap is modelled as the list of its
values in iteration order. -/
structure ProcMap where
  nodes : List Node
  deriving DecidableEq, Repr

/-- Slot::is_free. -/
def Slot.is_free (s : Slot) : Bool := s.job.isNone

/-- Slot::acquire — fails if the slot already carries an assignment,
otherwise records the job id. -/
def Slot.acquire (s : Slot) (jobid : Nat) : Except MapErr Slot :=
  if s.job.isSome then .error .alreadyTaken
  else .ok { s with job := some jobid }

/-- The slot loop of Numa::acquire: acquire the first free slot, if any. -/
def acquireFirstFreeSlot (jobid : Nat) : List Slot → Option (List Slot)
  | [] => none
  | s :: rest =>
    if s.is_free then some ({ s with job := some jobid } :: rest)
    else (acquireFirstFreeSlot jobid rest).map (s :: ·)

/-- Numa::acquire. -/
def Numa.acquire (nu : Numa) (jobid : Nat) : Except MapErr Numa :=
  match acquireFirstFreeSlot jobid nu.slots with
  | some slots2 => .ok { nu with slots := slots2 }
  | none => .error (.noFreeSlotOnNuma nu.id)

/-- The numa loop of Node::acquire: first numa whose acquire succeeds. -/
def acquireFirstNuma (jobid : Nat) : List Numa → Option (List Numa)
  | [] => none
  | nu :: rest =>
    match nu.acquire jobid with
    | .ok nu2 => some (nu2 :: rest)
    | .error _ => (acquireFirstNuma jobid rest).map (nu :: ·)

/-- Node::acquire — tries acquire on each NUMA in iteration order; succeeds
on the first; fails only when all NUMAs are full. -/
def Node.acquire (nd : Node) (jobid : Nat) : Except MapErr Node :=
  match acquireFirstNuma jobid nd.numas with
  | some numas2 => .ok { nd with numas := numas2 }
  | none => .error (.noFreeSlotOnNode nd.host)

/-- Slots of a numa list, in each_slot order. -/
def numasSlots (l : List Numa) : List Slot := l.flatMap Numa.slots

/-- Slots of a node list, in each_slot order. -/
def nodesSlots (l : List Node) : List Slot := l.flatMap (fun nd => numasSlots nd.numas)

/-- ProcMap::each_slot as the list of slots in node-major, numa-major,
insertion order. -/
def ProcMap.each_slot (pm : ProcMap) : List Slot := nodesSlots pm.nodes

/-- ProcMap::count_free_slots. -/
def ProcMap.count_free_slots (pm : ProcMap) : Nat :=
  (pm.each_slot.filter Slot.is_free).length

/-- Number of slots of a slot list that are free. -/
def slotsF (l : List Slot) : Nat := (l.filter Slot.is_free).length

/-- Number of slots of a slot list assigned to job `j`. -/
def slotsA (j : Nat) (l : List Slot) : Nat :=
  (l.filter (fun s => s.job == some j)).length

/-! ## Inventory build (ProcMap::init over decoded RankReports) -/

/-- struct JobDesc — the RankReport wire record.  `rank` is a `u32`; note
the JSON decoder imposes no relation between `numa` and `pu`. -/
structure JobDesc where
  host : String
  rank : Nat
  numa : List Nat
  pu : List (List Nat)
  deriving DecidableEq, Repr

/-- Two's-complement cast `u32 as i32` (`job.rank as i32` in ProcMap::init). -/
def u32AsI32 (n : Nat) : Int :=
  if n < 2 ^ 31 then (n : Int) else (n : Int) - 2 ^ 32

/-- Two's-complement cast `i32 as u32` (`rank as u32` in output_map). -/
def i32AsU32 (i : Int) : Nat := (i % (2 ^ 32 : Int)).toNat

/-- The numas HashMap entry-or-insert followed by the slot push: append one
slot (rank, pu, free) to the numa with this id, creating it on first sight. -/
def insertReportNuma (rank : Nat) (numaId : Nat) (slotPu : List Nat) :
    List Numa → List Numa
  | [] => [{ id := numaId, slots := [{ rank := u32AsI32 rank, pu := slotPu, job := none }] }]
  | nu :: rest =>
    if nu.id = numaId then
      { nu with slots := nu.slots ++ [{ rank := u32AsI32 rank, pu := slotPu, job := none }] } :: rest
    else nu :: insertReportNuma rank numaId slotPu rest

/-- The `for (cnt, numa_id) in job.numa.iter().enumerate()` loop of
ProcMap::init; `job.pu.get(cnt).expect(..)` panics when `pu` is shorter. -/
def insertNumasOfReport (r : JobDesc) : Nat → List Nat → List Numa →
    Except MapErr (List Numa)
  | _, [], numas => .ok numas
  | cnt, numaId :: restIds, numas =>
    match r.pu.get? cnt with
    | none => .error .panicExpect
    | some slotPu =>
      insertNumasOfReport r (cnt + 1) restIds (insertReportNuma r.rank numaId slotPu numas)

/-- The nodes HashMap entry-or-insert of ProcMap::init for one report. -/
def insertReportNode (r : JobDesc) : List Node → Except MapErr (List Node)
  | [] =>
    match insertNumasOfReport r 0 r.numa [] with
    | .error e => .error e
    | .ok numas => .ok [{ host := r.host, numas := numas }]
  | nd :: rest =>
    if nd.host = r.host then
      match insertNumasOfReport r 0 r.numa nd.numas with
      | .error e => .error e
      | .ok numas => .ok ({ nd with numas := numas } :: rest)
    else
      match insertReportNode r rest with
      | .error e => .error e
      | .ok rest2 => .ok (nd :: rest2)

/-- The `for job in jobs.iter()` loop of ProcMap::init, threading the nodes
accumulator left to right over the reports. -/
def initLoop : List JobDesc → List Node → Except MapErr (List Node)
  | [], nodes => .ok nodes
  | r :: rest, nodes =>
    match insertReportNode r nodes with
    | .error e => .error e
    | .ok nodes2 => initLoop rest nodes2

/-- ProcMap::init on the list of decoded reports (discovery already done). -/
def ProcMap.init (reports : List JobDesc) : Except MapErr ProcMap :=
  match initLoop reports [] with
  | .error e => .error e
  | .ok nodes => .ok { nodes := nodes }

/-! ## map_for_defined_size (src/map.rs)

The `numa` and `node` arms are `while 0 < number_to_alloc` loops whose body
is one pass over the containers; a pass stops early (`break`) once
`number_to_alloc` reaches 0.  `did_alloc` records whether the pass made an
acquisition; since every acquisition decrements `number_to_alloc` exactly
once, `did_alloc == false` holds iff the pass returns with the counter
unchanged, and the while loop is translated with that test (which also makes
its termination measure explicit).  A successful acquire at counter 0 would
be a usize subtraction overflow in Rust, modelled as `usizeUnderflow`; the
while guard makes it unreachable. -/

/-- One pass of the numa-locality loop over the numas of a single node,
threading the remaining count; returns the updated numas and count,
count 0 meaning the pass hit `break`. -/
def numaPassNumas (jobid : Nat) (onEach : Bool) :
    List Numa → Nat → Except MapErr (List Numa × Nat)
  | [], n => .ok ([], n)
  | nu :: rest, n =>
    match nu.acquire jobid with
    | .ok nu2 =>
      match n with
      | 0 => .error .usizeUnderflow
      | m + 1 =>
        if m = 0 then .ok (nu2 :: rest, 0)
        else
          match numaPassNumas jobid onEach rest m with
          | .error e => .error e
          | .ok (rest2, n2) => .ok (nu2 :: rest2, n2)
    | .error _ =>
      if onEach then .error .noRoomOnNuma
      else
        match numaPassNumas jobid onEach rest n with
        | .error e => .error e
        | .ok (rest2, n2) => .ok (nu :: rest2, n2)

/-- One pass of the numa-locality loop over `each_numa()` (all numas of all
nodes); entered with a positive count, so a returned count of 0 means the
flat loop hit `break` and the remaining nodes are left untouched. -/
def numaPassNodes (jobid : Nat) (onEach : Bool) :
    List Node → Nat → Except MapErr (List Node × Nat)
  | [], n => .ok ([], n)
  | nd :: rest, n =>
    match numaPassNumas jobid onEach nd.numas n with
    | .error e => .error e
    | .ok (numas2, n2) =>
      if n2 = 0 then .ok ({ nd with numas := numas2 } :: rest, 0)
      else
        match numaPassNodes jobid onEach rest n2 with
        | .error e => .error e
        | .ok (rest2, n3) => .ok ({ nd with numas := numas2 } :: rest2, n3)

/-- The `"numa"` arm of map_for_defined_size: repeated passes until the
count reaches 0; a pass that makes no acquisition (`did_alloc == false`,
i.e. the count is unchanged) fails with the remaining count. -/
def numaWhile (jobid : Nat) (onEach : Bool) (n : Nat) (nodes : List Node) :
    Except MapErr (List Node) :=
  if n = 0 then .ok nodes
  else
    match numaPassNodes jobid onEach nodes n with
    | .error e => .error e
    | .ok (nodes2, n2) =>
      if h : n2 < n then numaWhile jobid onEach n2 nodes2
      else .error (.noRoomFixedNuma n2)
termination_by n
decreasing_by exact h

/-- One pass of the node-locality loop over `each_node()`. -/
def nodePassNodes (jobid : Nat) (onEach : Bool) :
    List Node → Nat → Except MapErr (List Node × Nat)
  | [], n => .ok ([], n)
  | nd :: rest, n =>
    match nd.acquire jobid with
    | .ok nd2 =>
      match n with
      | 0 => .error .usizeUnderflow
      | m + 1 =>
        if m = 0 then .ok (nd2 :: rest, 0)
        else
          match nodePassNodes jobid onEach rest m with
          | .error e => .error e
          | .ok (rest2, n2) => .ok (nd2 :: rest2, n2)
    | .error _ =>
      if onEach then .error .noRoomOnNode
      else
        match nodePassNodes jobid onEach rest n with
        | .error e => .error e
        | .ok (rest2, n2) => .ok (nd :: rest2, n2)

/-- The `"node"` arm of map_for_defined_size. -/
def nodeWhile (jobid : Nat) (onEach : Bool) (n : Nat) (nodes : List Node) :
    Except MapErr (List Node) :=
  if n = 0 then .ok nodes
  else
    match nodePassNodes jobid onEach nodes n with
    | .error e => .error e
    | .ok (nodes2, n2) =>
      if h : n2 < n then nodeWhile jobid onEach n2 nodes2
      else .error (.noRoomFixedNode n2)
termination_by n
decreasing_by exact h

/-- The `"slot"` arm of map_for_defined_size over the slots of one numa.
Every slot is visited; a free one is acquired and the count decremented
(underflow when the count is already 0); after every slot, count 0 breaks.
The Bool records whether `break` was hit. -/
def slotWalkSlots (jobid : Nat) : List Slot → Nat → Except MapErr (List Slot × Nat × Bool)
  | [], n => .ok ([], n, false)
  | s :: rest, n =>
    if s.is_free then
      match n with
      | 0 => .error .usizeUnderflow
      | m + 1 =>
        if m = 0 then .ok ({ s with job := some jobid } :: rest, 0, true)
        else
          match slotWalkSlots jobid rest m with
          | .error e => .error e
          | .ok (rest2, n2, br) => .ok ({ s with job := some jobid } :: rest2, n2, br)
    else
      if n = 0 then .ok (s :: rest, 0, true)
      else
        match slotWalkSlots jobid rest n with
        | .error e => .error e
        | .ok (rest2, n2, br) => .ok (s :: rest2, n2, br)

/-- Slot walk over the slots of a numa list, propagating `break`. -/
def slotWalkNumas (jobid : Nat) : List Numa → Nat → Except MapErr (List Numa × Nat × Bool)
  | [], n => .ok ([], n, false)
  | nu :: rest, n =>
    match slotWalkSlots jobid nu.slots n with
    | .error e => .error e
    | .ok (slots2, n2, br) =>
      if br then .ok ({ nu with slots := slots2 } :: rest, n2, true)
      else
        match slotWalkNumas jobid rest n2 with
        | .error e => .error e
        | .ok (rest2, n3, br2) => .ok ({ nu with slots := slots2 } :: rest2, n3, br2)

/-- Slot walk over the slots of a node list, propagating `break`. -/
def slotWalkNodes (jobid : Nat) : List Node → Nat → Except MapErr (List Node × Nat × Bool)
  | [], n => .ok ([], n, false)
  | nd :: rest, n =>
    match slotWalkNumas jobid nd.numas n with
    | .error e => .error e
    | .ok (numas2, n2, br) =>
      if br then .ok ({ nd with numas := numas2 } :: rest, n2, true)
      else
        match slotWalkNodes jobid rest n2 with
        | .error e => .error e
        | .ok (rest2, n3, br2) => .ok ({ nd with numas := numas2 } :: rest2, n3, br2)

/-- ProcMap::map_for_defined_size. -/
def ProcMap.map_for_defined_size (pm : ProcMap) (level : String) (size : Nat)
    (jobid : Nat) (onEach : Bool) : Except MapErr ProcMap :=
  match level with
  | "numa" =>
    match numaWhile jobid onEach size pm.nodes with
    | .error e => .error e
    | .ok nodes2 => .ok { nodes := nodes2 }
  | "node" =>
    match nodeWhile jobid onEach size pm.nodes with
    | .error e => .error e
    | .ok nodes2 => .ok { nodes := nodes2 }
  | "slot" =>
    match slotWalkNodes jobid pm.nodes size with
    | .error e => .error e
    | .ok (nodes2, n2, _) =>
      if n2 ≠ 0 then .error (.notEnoughSlots size)
      else .ok { nodes := nodes2 }
  | _ => .error (.noSuchLocality level)

/-! ## ProcMap::map — the three solver phases -/

/-- Enumeration of the job list with zero-based indices starting at `k`;
`JobList::job_id` returns exactly the zero-based index of an entry, so the
phases iterate over `enumJobs 0 jobs`. -/
def enumJobs (k : Nat) : List JobEntry → List (Nat × JobEntry)
  | [] => []
  | j :: rest => (k, j) :: enumJobs (k + 1) rest

/-- Phase 1 helper, loc = numa: `for nu in each_numa() { nu.acquire(id)? }`
over one node's numas — every numa must yield a slot. -/
def acquireEachNumaInList (jobid : Nat) : List Numa → Except MapErr (List Numa)
  | [] => .ok []
  | nu :: rest =>
    match nu.acquire jobid with
    | .error e => .error e
    | .ok nu2 =>
      match acquireEachNumaInList jobid rest with
      | .error e => .error e
      | .ok rest2 => .ok (nu2 :: rest2)

/-- Phase 1 helper, loc = numa, lifted over all nodes. -/
def acquireEachNumaNodes (jobid : Nat) : List Node → Except MapErr (List Node)
  | [] => .ok []
  | nd :: rest =>
    match acquireEachNumaInList jobid nd.numas with
    | .error e => .error e
    | .ok numas2 =>
      match acquireEachNumaNodes jobid rest with
      | .error e => .error e
      | .ok rest2 => .ok ({ nd with numas := numas2 } :: rest2)

/-- Phase 1 helper, loc = node: `for n in each_node() { n.acquire(id)? }`. -/
def acquireEachNodeList (jobid : Nat) : List Node → Except MapErr (List Node)
  | [] => .ok []
  | nd :: rest =>
    match nd.acquire jobid with
    | .error e => .error e
    | .ok nd2 =>
      match acquireEachNodeList jobid rest with
      | .error e => .error e
      | .ok rest2 => .ok (nd2 :: rest2)

/-- Phase 1 helper, loc = slot: `for s in each_slot() { s.acquire(id)? }` —
fails on the first already-taken slot. -/
def acquireEachSlotInList (jobid : Nat) : List Slot → Except MapErr (List Slot)
  | [] => .ok []
  | s :: rest =>
    match s.acquire jobid with
    | .error e => .error e
    | .ok s2 =>
      match acquireEachSlotInList jobid rest with
      | .error e => .error e
      | .ok rest2 => .ok (s2 :: rest2)

/-- Phase 1 helper, loc = slot, lifted over one node's numas. -/
def acquireEachSlotNumas (jobid : Nat) : List Numa → Except MapErr (List Numa)
  | [] => .ok []
  | nu :: rest =>
    match acquireEachSlotInList jobid nu.slots with
    | .error e => .error e
    | .ok slots2 =>
      match acquireEachSlotNumas jobid rest with
      | .error e => .error e
      | .ok rest2 => .ok ({ nu with slots := slots2 } :: rest2)

/-- Phase 1 helper, loc = slot, lifted over all nodes. -/
def acquireEachSlotNodes (jobid : Nat) : List Node → Except MapErr (List Node)
  | [] => .ok []
  | nd :: rest =>
    match acquireEachSlotNumas jobid nd.numas with
    | .error e => .error e
    | .ok numas2 =>
      match acquireEachSlotNodes jobid rest with
      | .error e => .error e
      | .ok rest2 => .ok ({ nd with numas := numas2 } :: rest2)

/-- Phase 1 of ProcMap::map: for each job with order "E" (in JobList
order), acquire one slot on every container of its locality; a missing
locality is the Rust `unreachable!` panic. -/
def eachPhase : List (Nat × JobEntry) → ProcMap → Except MapErr ProcMap
  | [], pm => .ok pm
  | (i, j) :: rest, pm =>
    if j.order = "E" then
      match j.loc with
      | none => .error .panicUnreachable
      | some l =>
        match l with
        | "numa" =>
          match acquireEachNumaNodes i pm.nodes with
          | .error e => .error e
          | .ok nodes2 => eachPhase rest { nodes := nodes2 }
        | "node" =>
          match acquireEachNodeList i pm.nodes with
          | .error e => .error e
          | .ok nodes2 => eachPhase rest { nodes := nodes2 }
        | "slot" =>
          match acquireEachSlotNodes i pm.nodes with
          | .error e => .error e
          | .ok nodes2 => eachPhase rest { nodes := nodes2 }
        | _ => .error (.noSuchLocality l)
    else eachPhase rest pm

/-- Value of a non-empty all-digits run; models `str::parse::<usize>` on
grammar-produced order strings (usize overflow is not modelled). -/
def digitsVal : List Char → Option Nat
  | [] => none
  | ds =>
    if ds.all isDigitChar then
      some (ds.foldl (fun a c => a * 10 + (c.toNat - 48)) 0)
    else none

/-- `str::parse::<usize>`: optional leading plus sign, then digits. -/
def parseUsize (s : String) : Option Nat :=
  match s.toList with
  | '+' :: ds => digitsVal ds
  | ds => digitsVal ds

/-- Phase 2 of ProcMap::map: for each fixed-count job (order neither "A"
nor "E"), parse the order and run the locality walk with on_each = true. -/
def fixedPhase : List (Nat × JobEntry) → ProcMap → Except MapErr ProcMap
  | [], pm => .ok pm
  | (i, j) :: rest, pm =>
    if j.order ≠ "A" ∧ j.order ≠ "E" then
      match parseUsize j.order with
      | none => .error (.parseOrderFailed j.order)
      | some n =>
        match pm.map_for_defined_size j.loc_or_slot n i true with
        | .error e => .error e
        | .ok pm2 => fixedPhase rest pm2
    else fixedPhase rest pm

/-- The "A"-jobs loop of phase 3: the first "A" job (is_first) receives
quantum + rest, every subsequent one quantum, with on_each = false. -/
def allPhase (quantum rest : Nat) :
    List (Nat × JobEntry) → Bool → ProcMap → Except MapErr ProcMap
  | [], _, pm => .ok pm
  | (i, j) :: restJ, isFirst, pm =>
    if j.order = "A" then
      match pm.map_for_defined_size j.loc_or_slot
          (if isFirst then quantum + rest else quantum) i false with
      | .error e => .error e
      | .ok pm2 => allPhase quantum rest restJ false pm2
    else allPhase quantum rest restJ isFirst pm

/-- JobList::all_jobs_count. -/
def allJobsCount (jobs : List JobEntry) : Nat :=
  (jobs.filter (fun j => j.order == "A")).length

/-- Phase 3 of ProcMap::map.  The Rust code always evaluates
`remaining_slots / all_job_count`; with no "A" job this is a usize division
by zero, i.e. a panic, modelled as `divByZeroPanic`. -/
def ProcMap.phase3 (pm : ProcMap) (jobs : List JobEntry) : Except MapErr ProcMap :=
  match allJobsCount jobs with
  | 0 => .error .divByZeroPanic
  | k + 1 =>
    let remaining := pm.count_free_slots
    let quantum := remaining / (k + 1)
    allPhase quantum (remaining - (k + 1) * quantum) (enumJobs 0 jobs) true pm

/-- ProcMap::map: the three phases in strict order. -/
def ProcMap.map (pm : ProcMap) (jobs : List JobEntry) : Except MapErr ProcMap :=
  match eachPhase (enumJobs 0 jobs) pm with
  | .error e => .error e
  | .ok pm1 =>
    match fixedPhase (enumJobs 0 jobs) pm1 with
    | .error e => .error e
    | .ok pm2 => pm2.phase3 jobs

/-! ## Topology probe (output_map in src/main.rs) -/

/-- One NUMA object of the process-restricted topology view: its cpuset
(the ordered list of PU OS indices inside it; `none` models a Rust `None`
cpuset) and its optional OS index. -/
structure NumaObj where
  cpuset : Option (List Nat)
  osIndex : Option Nat
  deriving DecidableEq, Repr

/-- The `numa` vector of output_map: every object flows through the `map`
combinator (whose side effect records its cpuset for `pu`), then objects
with an EMPTY restricted cpuset are dropped, then objects without an OS
index are dropped.  `cpuset().unwrap()` in the filter panics on `none`. -/
def probeNuma : List NumaObj → Except MapErr (List Nat)
  | [] => .ok []
  | o :: rest =>
    match o.cpuset with
    | none => .error .panicUnwrapNone
    | some cs =>
      if cs.isEmpty then probeNuma rest
      else
        match o.osIndex with
        | none => probeNuma rest
        | some idx =>
          match probeNuma rest with
          | .error e => .error e
          | .ok l => .ok (idx :: l)

/-- The `pu` vector of output_map: `filter_map` over ALL recorded cpusets —
`None` cpusets are dropped, but EMPTY cpusets are kept. -/
def probePu (objs : List NumaObj) : List (List Nat) :=
  objs.filterMap NumaObj.cpuset

/-- The (numa, pu) pair of the probe's RankReport. -/
def probeNumaPu (objs : List NumaObj) : Except MapErr (List Nat × List (List Nat)) :=
  match probeNuma objs with
  | .error e => .error e
  | .ok numa => .ok (numa, probePu objs)

/-- `str::parse::<i32>`: optional sign, non-empty digit run, range check. -/
def parseI32 (s : String) : Option Int :=
  let val : Option Int :=
    match s.toList with
    | '-' :: ds => (digitsVal ds).map (fun v => -(v : Int))
    | '+' :: ds => (digitsVal ds).map (fun v => (v : Int))
    | ds => (digitsVal ds).map (fun v => (v : Int))
  match val with
  | none => none
  | some v => if -(2 ^ 31 : Int) ≤ v ∧ v < 2 ^ 31 then some v else none

/-- The rank computation of output_map: PMI_RANK if set, else PMIX_RANK,
else -1; a present but non-integer value panics (`parse().unwrap()`). -/
def probeRank (pmi pmix : Option String) : Except MapErr Int :=
  match pmi with
  | some v =>
    match parseI32 v with
    | some r => .ok r
    | none => .error .panicUnwrapNone
  | none =>
    match pmix with
    | some v =>
      match parseI32 v with
      | some r => .ok r
      | none => .error .panicUnwrapNone
    | none => .ok (-1)

/-- The `rank` field of the emitted JSON record: output_map stores
`rank as u32` into JobDesc.rank (a u32), and serde_json prints that
unsigned value. -/
def probeRankField (pmi pmix : Option String) : Except MapErr Nat :=
  match probeRank pmi pmix with
  | .error e => .error e
  | .ok r => .ok (i32AsU32 r)

/-! ## The run pipeline (main in src/main.rs, non-probe path) -/

/-- Observable steps of the run path of main. -/
inductive RunStep where
  | checkSrun
  | discovery
  | loadJob
  | solve
  | emitFile
  | execLaunch
  deriving DecidableEq, Repr

/-- The run path of main: check srun on PATH, then ProcMap::init — whose
discovery spawns the launcher — and only afterwards JobList::load, the
solver, the emitter and the launch.  Returns the steps performed, in
order, and the error (if any) that stopped the pipeline. -/
def mainRun (srunOk : Bool) (reports : List JobDesc) (jobArg : Option (List Job)) :
    List RunStep × Option MapErr :=
  if srunOk = false then ([.checkSrun], some .srunNotFound)
  else
    match ProcMap.init reports with
    | .error e => ([.checkSrun, .discovery], some e)
    | .ok pm =>
      match jobArg with
      | none => ([.checkSrun, .discovery], none)
      | some raw =>
        match jobListLoad raw with
        | .error e => ([.checkSrun, .discovery, .loadJob], some e)
        | .ok jobs =>
          match pm.map jobs with
          | .error e => ([.checkSrun, .discovery, .loadJob, .solve], some e)
          | .ok _ =>
            ([.checkSrun, .discovery, .loadJob, .solve, .emitFile, .execLaunch], none)

/-! ## Spec-side description for claim C8 -/

/-- Spec-side walk, following the spec's words for the slot locality:
acquire the first `n` free slots of the linear walk for job `j` and leave
every other slot unchanged. -/
def specAcquireFirstFree (j : Nat) : Nat → List Slot → List Slot
  | _, [] => []
  | 0, l => l
  | n + 1, s :: rest =>
    if s.is_free then { s with job := some j } :: specAcquireFirstFree j n rest
    else s :: specAcquireFirstFree j (n + 1) rest

/-! ## Decidable equality for Except values (used to evaluate the model) -/

instance {ε α : Type} [DecidableEq ε] [DecidableEq α] : DecidableEq (Except ε α) := fun a b =>
  match a, b with
  | .error e, .error f =>
    match decEq e f with
    | isTrue h => isTrue (congrArg Except.error h)
    | isFalse h => isFalse (fun c => h (Except.error.inj c))
  | .ok x, .ok y =>
    match decEq x y with
    | isTrue h => isTrue (congrArg Except.ok h)
    | isFalse h => isFalse (fun c => h (Except.ok.inj c))
  | .error _, .ok _ => isFalse (fun c => Except.noConfusion c)
  | .ok _, .error _ => isFalse (fun c => Except.noConfusion c)

/-! ## Slot-list evolution relations -/

/-- Pointwise relation between two slot lists of the same length. -/
inductive SlotsRel (R : Slot → Slot → Prop) : List Slot → List Slot → Prop
  | nil : SlotsRel R [] []
  | cons {s s2 : Slot} {l l2 : List Slot} :
      R s s2 → SlotsRel R l l2 → SlotsRel R (s :: l) (s2 :: l2)

/-- One acquisition step for job `j`: the slot is untouched, or it was free
and is now assigned to `j` (rank and pu unchanged). -/
def SlotStep (j : Nat) (s s2 : Slot) : Prop :=
  s2 = s ∨ (s.job = none ∧ s2 = { s with job := some j })

/-- Evolution under a set `P` of job ids: the slot is untouched, or it was
free and is now assigned to some job satisfying `P`. -/
def SlotEvol (P : Nat → Prop) (s s2 : Slot) : Prop :=
  s2 = s ∨ (s.job = none ∧ ∃ j, P j ∧ s2 = { s with job := some j })

theorem SlotsRel.self {R : Slot → Slot → Prop} (hR : ∀ s, R s s) :
    ∀ l, SlotsRel R l l
  | [] => .nil
  | _ :: l => .cons (hR _) (SlotsRel.self hR l)

theorem SlotsRel.append {R : Slot → Slot → Prop} {a b c d : List Slot}
    (h1 : SlotsRel R a b) (h2 : SlotsRel R c d) : SlotsRel R (a ++ c) (b ++ d) := by
  induction h1 with
  | nil => exact h2
  | cons hr _ ih => exact .cons hr ih

theorem SlotsRel.comp {R S T : Slot → Slot → Prop}
    (hRST : ∀ a b c, R a b → S b c → T a c) :
    ∀ {a b c : List Slot}, SlotsRel R a b → SlotsRel S b c → SlotsRel T a c := by
  intro a b c h1 h2
  induction h1 generalizing c with
  | nil => cases h2; exact .nil
  | cons hr _ ih =>
    cases h2 with
    | cons hs h2tail => exact .cons (hRST _ _ _ hr hs) (ih h2tail)

theorem SlotsRel.imp {R S : Slot → Slot → Prop} (h : ∀ a b, R a b → S a b) :
    ∀ {a b : List Slot}, SlotsRel R a b → SlotsRel S a b := by
  intro a b hab
  induction hab with
  | nil => exact .nil
  | cons hr _ ih => exact .cons (h _ _ hr) ih

theorem SlotsRel.mem_right {R : Slot → Slot → Prop} {a b : List Slot}
    (h : SlotsRel R a b) : ∀ s2 ∈ b, ∃ s ∈ a, R s s2 := by
  induction h with
  | nil => intro s2 hs2; cases hs2
  | cons hr _ ih =>
    intro s2 hs2
    rcases hs2 with _ | hs2
    case head => exact ⟨_, List.mem_cons_self .., hr⟩
    case tail h2 =>
      obtain ⟨s, hs, hRs⟩ := ih _ h2
      exact ⟨s, List.mem_cons_of_mem _ hs, hRs⟩

theorem slotStep_refl (j : Nat) (s : Slot) : SlotStep j s s := Or.inl rfl

theorem slotStep_evol {P : Nat → Prop} {j : Nat} (hP : P j) {s s2 : Slot}
    (h : SlotStep j s s2) : SlotEvol P s s2 := by
  rcases h with h | ⟨h1, h2⟩
  · exact Or.inl h
  · exact Or.inr ⟨h1, j, hP, h2⟩

theorem slotEvol_refl (P : Nat → Prop) (s : Slot) : SlotEvol P s s := Or.inl rfl

theorem slotEvol_trans {P : Nat → Prop} {a b c : Slot}
    (h1 : SlotEvol P a b) (h2 : SlotEvol P b c) : SlotEvol P a c := by
  rcases h2 with h2 | ⟨hb, j, hj, hc⟩
  · rw [h2]; exact h1
  · rcases h1 with h1 | ⟨ha, j1, hj1, hb1⟩
    · rw [h1] at hb hc; exact Or.inr ⟨hb, j, hj, hc⟩
    · rw [hb1] at hb; simp at hb

/-- Count of job `j` on a cons cell. -/
theorem slotsA_cons (j : Nat) (s : Slot) (l : List Slot) :
    slotsA j (s :: l) = slotsA j l + (if s.job = some j then 1 else 0) := by
  simp only [slotsA, List.filter_cons]
  by_cases h : s.job = some j
  · simp [h]
  · simp [h]

/-- Count of free slots on a cons cell. -/
theorem slotsF_cons (s : Slot) (l : List Slot) :
    slotsF (s :: l) = slotsF l + (if s.job = none then 1 else 0) := by
  simp only [slotsF, List.filter_cons, Slot.is_free]
  by_cases h : s.job = none
  · simp [h]
  · simp [h, Option.isNone_iff_eq_none]

theorem slotsA_append (j : Nat) (a b : List Slot) :
    slotsA j (a ++ b) = slotsA j a + slotsA j b := by
  simp [slotsA, List.filter_append]

theorem slotsF_append (a b : List Slot) :
    slotsF (a ++ b) = slotsF a + slotsF b := by
  simp [slotsF, List.filter_append]

/-- Counting: a `SlotStep j` evolution changes `slotsA j` and `slotsF` by
the same amount, in opposite directions. -/
theorem slotsRel_step_counts {j : Nat} :
    ∀ {l l2 : List Slot}, SlotsRel (SlotStep j) l l2 →
      ∃ c, slotsA j l2 = slotsA j l + c ∧ slotsF l = slotsF l2 + c := by
  intro l l2 h
  induction h with
  | nil => exact ⟨0, rfl, rfl⟩
  | cons hr hrel ih =>
    obtain ⟨c, hA, hF⟩ := ih
    rcases hr with rfl | ⟨hfree, rfl⟩
    · simp only [slotsA_cons, slotsF_cons]
      exact ⟨c, by omega, by omega⟩
    · refine ⟨c + 1, ?_, ?_⟩ <;>
      · simp only [slotsA_cons, slotsF_cons, hfree]
        simp only [reduceCtorEq, if_false, if_true, if_pos rfl]
        omega

/-- A `SlotStep j` evolution leaves the count of any other job unchanged. -/
theorem slotsRel_step_other {i j : Nat} (hij : i ≠ j) :
    ∀ {l l2 : List Slot}, SlotsRel (SlotStep j) l l2 → slotsA i l2 = slotsA i l := by
  intro l l2 h
  induction h with
  | nil => rfl
  | cons hr hrel ih =>
    rcases hr with rfl | ⟨hfree, rfl⟩
    · simp only [slotsA_cons, ih]
    · simp only [slotsA_cons, hfree, ih]
      dsimp only
      rw [if_neg (by simp only [Option.some.injEq]; omega),
          if_neg (fun hc => Option.noConfusion hc)]

/-- An evolution confined to job ids different from `i` leaves the count of
`i` unchanged. -/
theorem slotsRel_evol_other {i : Nat} {P : Nat → Prop} (hP : ∀ a, P a → a ≠ i) :
    ∀ {l l2 : List Slot}, SlotsRel (SlotEvol P) l l2 → slotsA i l2 = slotsA i l := by
  intro l l2 h
  induction h with
  | nil => rfl
  | cons hr hrel ih =>
    rcases hr with rfl | ⟨hfree, jj, hjj, rfl⟩
    · simp only [slotsA_cons, ih]
    · simp only [slotsA_cons, hfree, ih]
      dsimp only
      rw [if_neg (by simp only [Option.some.injEq]; exact hP jj hjj),
          if_neg (fun hc => Option.noConfusion hc)]

/-! ## Inventory-build lemmas (ProcMap::init) -/

theorem insertReportNuma_slots (rank numaId : Nat) (slotPu : List Nat) :
    ∀ numas : List Numa,
      (numasSlots (insertReportNuma rank numaId slotPu numas)).length
        = (numasSlots numas).length + 1
  | [] => by simp [insertReportNuma, numasSlots]
  | nu :: rest => by
    by_cases h : nu.id = numaId
    · simp [insertReportNuma, h, numasSlots]
      omega
    · simp only [insertReportNuma, if_neg h, numasSlots, List.flatMap_cons]
      have ih := insertReportNuma_slots rank numaId slotPu rest
      simp only [numasSlots] at ih
      simp [ih]
      omega

theorem insertNumasOfReport_ok (r : JobDesc) :
    ∀ (ids : List Nat) (cnt : Nat) (numas : List Numa),
      cnt + ids.length ≤ r.pu.length →
      ∃ numas2, insertNumasOfReport r cnt ids numas = .ok numas2 ∧
        (numasSlots numas2).length = (numasSlots numas).length + ids.length
  | [], cnt, numas, _ => ⟨numas, rfl, by simp⟩
  | numaId :: restIds, cnt, numas, h => by
    have hlt : cnt < r.pu.length := by simp at h; omega
    obtain ⟨v, hv⟩ : ∃ v, r.pu.get? cnt = some v := by
      cases h2 : r.pu.get? cnt with
      | none => exact absurd (List.get?_eq_none.mp h2) (by omega)
      | some v => exact ⟨v, rfl⟩
    have hrec := insertNumasOfReport_ok r restIds (cnt + 1)
      (insertReportNuma r.rank numaId v numas) (by simp at h ⊢; omega)
    obtain ⟨numas2, hok, hlen⟩ := hrec
    refine ⟨numas2, ?_, ?_⟩
    · simp only [insertNumasOfReport, hv]
      exact hok
    · rw [hlen, insertReportNuma_slots]
      simp
      omega

theorem insertNumasOfReport_err (r : JobDesc) :
    ∀ (ids : List Nat) (cnt : Nat) (numas : List Numa),
      r.pu.length < cnt + ids.length → 1 ≤ ids.length →
      insertNumasOfReport r cnt ids numas = .error .panicExpect
  | [], _, _, _, h1 => by simp at h1
  | numaId :: restIds, cnt, numas, h, _ => by
    cases h2 : r.pu.get? cnt with
    | none => simp only [insertNumasOfReport, h2]
    | some v =>
      have hlt : cnt < r.pu.length := by
        rcases Nat.lt_or_ge cnt r.pu.length with hlt2 | hge
        · exact hlt2
        · rw [List.get?_eq_none.mpr hge] at h2
          cases h2
      cases restIds with
      | nil => simp at h; omega
      | cons a b =>
        simp only [insertNumasOfReport, h2]
        exact insertNumasOfReport_err r (a :: b) (cnt + 1)
          (insertReportNuma r.rank numaId v numas) (by simp at h ⊢; omega) (by simp)

theorem insertReportNode_ok (r : JobDesc) (hok : r.numa.length ≤ r.pu.length) :
    ∀ nodes : List Node,
      ∃ nodes2, insertReportNode r nodes = .ok nodes2 ∧
        (nodesSlots nodes2).length = (nodesSlots nodes).length + r.numa.length
  | [] => by
    obtain ⟨numas2, h1, h2⟩ := insertNumasOfReport_ok r r.numa 0 [] (by omega)
    exact ⟨[{ host := r.host, numas := numas2 }], by simp [insertReportNode, h1],
      by simpa [nodesSlots, numasSlots] using h2⟩
  | nd :: rest => by
    by_cases h : nd.host = r.host
    · obtain ⟨numas2, h1, h2⟩ := insertNumasOfReport_ok r r.numa 0 nd.numas (by omega)
      refine ⟨{ nd with numas := numas2 } :: rest, ?_, ?_⟩
      · simp only [insertReportNode, if_pos h, h1]
      · simp only [nodesSlots, List.flatMap_cons] at *
        simp [h2]
        omega
    · obtain ⟨rest2, h1, h2⟩ := insertReportNode_ok r hok rest
      refine ⟨nd :: rest2, ?_, ?_⟩
      · simp only [insertReportNode, if_neg h, h1]
      · simp only [nodesSlots, List.flatMap_cons] at *
        simp [h2]
        omega

theorem insertReportNode_err (r : JobDesc) (herr : r.pu.length < r.numa.length) :
    ∀ nodes : List Node, insertReportNode r nodes = .error .panicExpect
  | [] => by
    have h := insertNumasOfReport_err r r.numa 0 [] (by omega) (by omega)
    simp only [insertReportNode, h]
  | nd :: rest => by
    by_cases h : nd.host = r.host
    · have h1 := insertNumasOfReport_err r r.numa 0 nd.numas (by omega) (by omega)
      simp only [insertReportNode, if_pos h, h1]
    · have h1 := insertReportNode_err r herr rest
      simp only [insertReportNode, if_neg h, h1]

theorem initLoop_ok :
    ∀ (reports : List JobDesc) (nodes : List Node),
      (∀ r ∈ reports, r.numa.length ≤ r.pu.length) →
      ∃ nodes2, initLoop reports nodes = .ok nodes2 ∧
        (nodesSlots nodes2).length
          = (nodesSlots nodes).length + (reports.map (fun r => r.numa.length)).sum
  | [], nodes, _ => ⟨nodes, rfl, by simp⟩
  | r :: rest, nodes, h => by
    obtain ⟨nodes1, h1, h2⟩ := insertReportNode_ok r (h r (by simp)) nodes
    obtain ⟨nodes2, h3, h4⟩ := initLoop_ok rest nodes1
      (fun x hx => h x (List.mem_cons_of_mem _ hx))
    refine ⟨nodes2, ?_, ?_⟩
    · simp only [initLoop, h1, h3]
    · rw [h4, h2]
      simp
      omega

theorem initLoop_err :
    ∀ (reports : List JobDesc) (nodes : List Node),
      (¬ ∀ r ∈ reports, r.numa.length ≤ r.pu.length) →
      initLoop reports nodes = .error .panicExpect
  | [], _, h => absurd (by simp) h
  | r :: rest, nodes, h => by
    by_cases hr : r.numa.length ≤ r.pu.length
    · obtain ⟨nodes1, h1, _⟩ := insertReportNode_ok r hr nodes
      have h3 : ¬ ∀ x ∈ rest, x.numa.length ≤ x.pu.length := by
        intro hc
        exact h (fun x hx => by
          rcases List.mem_cons.mp hx with rfl | hx2
          · exact hr
          · exact hc x hx2)
      simp only [initLoop, h1]
      exact initLoop_err rest nodes1 h3
    · have h1 := insertReportNode_err r (by omega) nodes
      simp only [initLoop, h1]

/-- C10: the inventory build is total exactly under the wire invariant
`len(numa) ≤ len(pu)` on every report; it then creates one Slot per
`(host, numa[i])` entry (the total slot count is the sum of the `numa`
lengths), while any report with `pu` shorter than `numa` makes
ProcMap::init panic through `.expect("Failed to retrieve slots")`. -/
theorem c10_inventory_build_totality (reports : List JobDesc) :
    ((∀ r ∈ reports, r.numa.length ≤ r.pu.length) →
      ∃ pm, ProcMap.init reports = .ok pm ∧
        pm.each_slot.length = (reports.map (fun r => r.numa.length)).sum) ∧
    ((¬ ∀ r ∈ reports, r.numa.length ≤ r.pu.length) →
      ProcMap.init reports = .error .panicExpect) := by
  constructor
  · intro h
    obtain ⟨nodes2, h1, h2⟩ := initLoop_ok reports [] h
    refine ⟨{ nodes := nodes2 }, ?_, ?_⟩
    · simp only [ProcMap.init, h1]
    · simpa [ProcMap.each_slot, nodesSlots] using h2
  · intro h
    have h1 := initLoop_err reports [] h
    simp only [ProcMap.init, h1]

/-- C10 witness: a concrete well-formed report list builds two slots; a
concrete report with `pu` shorter than `numa` panics. -/
theorem c10_witness :
    (∃ pm, ProcMap.init [{ host := "h1", rank := 0, numa := [0, 1], pu := [[0], [1]] }]
        = .ok pm ∧ pm.each_slot.length = 2) ∧
    ProcMap.init [{ host := "h1", rank := 0, numa := [0, 1], pu := [[0]] }]
      = .error .panicExpect := by
  constructor
  · obtain ⟨pm, h1, h2⟩ :=
      (c10_inventory_build_totality
        [{ host := "h1", rank := 0, numa := [0, 1], pu := [[0], [1]] }]).1 (by decide)
    exact ⟨pm, h1, by rw [h2]; rfl⟩
  · exact (c10_inventory_build_totality
      [{ host := "h1", rank := 0, numa := [0, 1], pu := [[0]] }]).2 (by decide)

/-- C1: the claim is FALSE on the code.  With no "A" job (`K == 0`) phase 3
is NOT a no-op: ProcMap::map always evaluates
`remaining_slots / all_job_count`, a usize division by zero, which panics.
Here phases 1-2 succeed (the fixed job takes one of the two free slots) and
the solver then dies computing the quantum. -/
theorem c1_phase3_div_by_zero_panic :
    ProcMap.map
      { nodes := [{ host := "h1", numas := [{ id := 0, slots :=
          [{ rank := 0, pu := [0], job := none },
           { rank := 1, pu := [1], job := none }] }] }] }
      [{ map := "1slot", order := "1", loc := some "slot", command := ["x"] }]
      = .error .divByZeroPanic := by decide

/-- C3: the claim is FALSE on the code.  A NUMA whose process-restricted
cpuset is empty is dropped from `numa` but its (empty) cpuset is kept in
`pu`, so `len(pu) != len(numa)` and the positional correspondence breaks:
here the retained NUMA 1 is paired with the empty list. -/
theorem c3_probe_numa_pu_length_mismatch :
    probeNumaPu [{ cpuset := some [], osIndex := some 0 },
                 { cpuset := some [0, 1], osIndex := some 1 }]
      = .ok ([1], [[], [0, 1]]) ∧
    ([1] : List Nat).length ≠ ([[], [0, 1]] : List (List Nat)).length := by decide

/-- C5: the claim is FALSE on the code.  With neither PMI_RANK nor
PMIX_RANK set, output_map computes the signed sentinel -1 but stores it as
`rank as u32` in the JobDesc wire record, so the JSON rank field carries
4294967295, not -1. -/
theorem c5_rank_sentinel_wire_value :
    probeRank none none = .ok (-1) ∧
    probeRankField none none = .ok 4294967295 ∧
    ((4294967295 : Int) ≠ (-1 : Int)) := by decide

/-- C4 counterexample: the claim is FALSE on the code.  For a job file with
the bad map string "Q" the pipeline does report the grammar error at load
time, but discovery HAS already occurred: main runs ProcMap::init (which
spawns the launcher) before JobList::load, so the trace contains the
discovery step before the load failure. -/
theorem c4_counterexample_discovery_before_load_error :
    mainRun true [{ host := "h1", rank := 0, numa := [0], pu := [[0]] }]
      (some [{ map := "Q", command := ["x"] }])
      = ([.checkSrun, .discovery, .loadJob], some (.badSyntax "Q")) ∧
    RunStep.discovery ∈ (mainRun true [{ host := "h1", rank := 0, numa := [0], pu := [[0]] }]
      (some [{ map := "Q", command := ["x"] }])).1 := by decide

/-- C4 amended: a job description whose map string fails the grammar makes
the program fail with the load-time ConfigError, but only AFTER discovery:
whenever srun is found and inventory discovery succeeds, a failing
JobList::load stops the pipeline with exactly the steps
check-srun, discovery, load performed, and the load error surfaced. -/
theorem c4_amended_load_error_after_discovery
    (reports : List JobDesc) (raw : List Job) (pm : ProcMap) (e : MapErr)
    (hinit : ProcMap.init reports = .ok pm) (hload : jobListLoad raw = .error e) :
    mainRun true reports (some raw) = ([.checkSrun, .discovery, .loadJob], some e) := by
  simp [mainRun, hinit, hload]

/-- C4 witness: the amended theorem applied to a concrete inventory and the
map string "E" (E without locality is a load-time ConfigError). -/
theorem c4_amended_witness :
    mainRun true [{ host := "h1", rank := 0, numa := [0], pu := [[0]] }]
      (some [{ map := "E", command := ["x"] }])
      = ([.checkSrun, .discovery, .loadJob], some .eRequiresLoc) :=
  c4_amended_load_error_after_discovery _ _
    { nodes := [{ host := "h1", numas := [{ id := 0, slots :=
        [{ rank := 0, pu := [0], job := none }] }] }] }
    .eRequiresLoc (by decide) (by decide)

/-! ## Slot-walk characterization (claim C8) -/

theorem specAFF_zero (j : Nat) : ∀ l : List Slot, specAcquireFirstFree j 0 l = l
  | [] => rfl
  | _ :: _ => rfl

theorem specAFF_nil (j n : Nat) : specAcquireFirstFree j n [] = [] := by
  cases n <;> rfl

theorem specAFF_slotsRel (j : Nat) :
    ∀ (l : List Slot) (n : Nat), SlotsRel (SlotStep j) l (specAcquireFirstFree j n l)
  | [], n => by rw [specAFF_nil]; exact .nil
  | s :: rest, 0 => by
    rw [specAFF_zero]
    exact SlotsRel.self (slotStep_refl j) _
  | s :: rest, n + 1 => by
    simp only [specAcquireFirstFree]
    by_cases hf : s.is_free
    · rw [if_pos hf]
      refine .cons (Or.inr ⟨?_, rfl⟩) (specAFF_slotsRel j rest n)
      simpa [Slot.is_free, Option.isNone_iff_eq_none] using hf
    · rw [if_neg hf]
      exact .cons (slotStep_refl j s) (specAFF_slotsRel j rest (n + 1))

theorem slot_free_job_none {s : Slot} (hf : s.is_free = true) : s.job = none := by
  simpa [Slot.is_free, Option.isNone_iff_eq_none] using hf

theorem slot_not_free_job_ne {s : Slot} (hf : ¬ s.is_free = true) : ¬ s.job = none := by
  simpa [Slot.is_free, Option.isNone_iff_eq_none] using hf

theorem slotsA_set_head (j : Nat) (s : Slot) (l : List Slot) :
    slotsA j ({ s with job := some j } :: l) = slotsA j l + 1 := by
  rw [slotsA_cons]; simp

theorem slotsF_set_head (j : Nat) (s : Slot) (l : List Slot) :
    slotsF ({ s with job := some j } :: l) = slotsF l := by
  rw [slotsF_cons]; simp

theorem slotsA_cons_of_none {s : Slot} (j : Nat) (hj : s.job = none) (l : List Slot) :
    slotsA j (s :: l) = slotsA j l := by
  rw [slotsA_cons]; simp [hj]

theorem slotsF_cons_of_none {s : Slot} (hj : s.job = none) (l : List Slot) :
    slotsF (s :: l) = slotsF l + 1 := by
  rw [slotsF_cons, if_pos hj]

theorem slotsF_cons_of_ne {s : Slot} (hj : ¬ s.job = none) (l : List Slot) :
    slotsF (s :: l) = slotsF l := by
  rw [slotsF_cons, if_neg hj]
  omega

theorem specAFF_counts (j : Nat) :
    ∀ (l : List Slot) (n : Nat),
      slotsA j (specAcquireFirstFree j n l) = slotsA j l + min n (slotsF l) ∧
      slotsF (specAcquireFirstFree j n l) + min n (slotsF l) = slotsF l
  | [], n => by simp [specAFF_nil, slotsA, slotsF]
  | s :: rest, 0 => by simp [specAFF_zero]
  | s :: rest, n + 1 => by
    obtain ⟨ihA, ihF⟩ := specAFF_counts j rest n
    obtain ⟨ihA2, ihF2⟩ := specAFF_counts j rest (n + 1)
    simp only [specAcquireFirstFree]
    by_cases hf : s.is_free
    · have hj := slot_free_job_none hf
      rw [if_pos hf, slotsA_set_head, slotsF_set_head,
        slotsA_cons_of_none j hj, slotsF_cons_of_none hj]
      constructor
      · rw [ihA]; simp [Nat.min_def]; split_ifs <;> omega
      · rw [← ihF]; simp [Nat.min_def]; split_ifs <;> omega
    · have hj := slot_not_free_job_ne hf
      rw [if_neg hf]
      simp only [slotsA_cons, slotsF_cons_of_ne hj]
      constructor
      · rw [ihA2]; omega
      · rw [← ihF2]; omega

theorem specAFF_append (j : Nat) :
    ∀ (xs ys : List Slot) (n : Nat),
      specAcquireFirstFree j n (xs ++ ys)
        = specAcquireFirstFree j n xs ++ specAcquireFirstFree j (n - min n (slotsF xs)) ys
  | [], ys, n => by simp [specAFF_nil, slotsF]
  | x :: xs, ys, 0 => by simp [specAFF_zero]
  | x :: xs, ys, n + 1 => by
    simp only [List.cons_append, specAcquireFirstFree, List.append_eq]
    by_cases hf : x.is_free
    · rw [if_pos hf, if_pos hf]
      rw [specAFF_append j xs ys n]
      have hj := slot_free_job_none hf
      rw [slotsF_cons_of_none hj]
      have heq : n + 1 - min (n + 1) (slotsF xs + 1) = n - min n (slotsF xs) := by
        simp [Nat.min_def]; split_ifs <;> omega
      rw [heq, List.cons_append]
    · rw [if_neg hf, if_neg hf]
      rw [specAFF_append j xs ys (n + 1)]
      have hj := slot_not_free_job_ne hf
      rw [slotsF_cons_of_ne hj, List.cons_append]

theorem slotWalkSlots_spec (j : Nat) :
    ∀ (l : List Slot) (n : Nat), 1 ≤ n →
      slotWalkSlots j l n
        = .ok (specAcquireFirstFree j n l, n - min n (slotsF l), decide (n ≤ slotsF l))
  | [], n, hn => by
    have h1 : n - min n (slotsF []) = n := by simp [slotsF]
    have h2 : decide (n ≤ slotsF ([] : List Slot)) = false := by
      rw [decide_eq_false_iff_not]
      simp [slotsF]
      omega
    rw [h1, h2, specAFF_nil]
    rfl
  | s :: rest, n, hn => by
    by_cases hf : s.is_free
    · have hj := slot_free_job_none hf
      cases n with
      | zero => omega
      | succ m =>
        cases m with
        | zero =>
          simp only [slotWalkSlots, if_pos hf]
          have hF : slotsF (s :: rest) = slotsF rest + 1 := by
            rw [slotsF_cons, if_pos hj]
          rw [hF]
          have h1 : 1 - min 1 (slotsF rest + 1) = 0 := by simp [Nat.min_def]
          have h2 : decide (1 ≤ slotsF rest + 1) = true := by simp
          rw [h1, h2]
          simp only [specAcquireFirstFree, if_pos hf, specAFF_zero]
          simp
        | succ m2 =>
          simp only [slotWalkSlots, if_pos hf]
          rw [if_neg (by omega : ¬ m2 + 1 = 0)]
          rw [slotWalkSlots_spec j rest (m2 + 1) (by omega)]
          have hF : slotsF (s :: rest) = slotsF rest + 1 := by
            rw [slotsF_cons, if_pos hj]
          rw [hF]
          have h1 : m2 + 1 + 1 - min (m2 + 1 + 1) (slotsF rest + 1)
              = m2 + 1 - min (m2 + 1) (slotsF rest) := by
            simp [Nat.min_def]; split_ifs <;> omega
          have h2 : decide (m2 + 1 + 1 ≤ slotsF rest + 1)
              = decide (m2 + 1 ≤ slotsF rest) := by
            rw [decide_eq_decide]; omega
          rw [h1, h2]
          simp only [specAcquireFirstFree, if_pos hf]
    · have hj := slot_not_free_job_ne hf
      have hF : slotsF (s :: rest) = slotsF rest := by
        rw [slotsF_cons, if_neg hj]; omega
      cases n with
      | zero => omega
      | succ m =>
        simp only [slotWalkSlots, if_neg hf]
        rw [if_neg (by omega : ¬ m + 1 = 0)]
        rw [slotWalkSlots_spec j rest (m + 1) (by omega)]
        rw [hF]
        simp only [specAcquireFirstFree, if_neg hf]

theorem slotWalkNumas_spec (j : Nat) :
    ∀ (l : List Numa) (n : Nat), 1 ≤ n →
      ∃ l2, slotWalkNumas j l n
          = .ok (l2, n - min n (slotsF (numasSlots l)), decide (n ≤ slotsF (numasSlots l))) ∧
        numasSlots l2 = specAcquireFirstFree j n (numasSlots l)
  | [], n, hn => by
    refine ⟨[], ?_, by simp [numasSlots, specAFF_nil]⟩
    have h1 : n - min n (slotsF (numasSlots [])) = n := by simp [numasSlots, slotsF]
    have h2 : decide (n ≤ slotsF (numasSlots [])) = false := by
      rw [decide_eq_false_iff_not]
      simp [numasSlots, slotsF]
      omega
    rw [h1, h2]
    rfl
  | nu :: rest, n, hn => by
    have hsplit : numasSlots (nu :: rest) = nu.slots ++ numasSlots rest := by
      simp [numasSlots]
    have hF : slotsF (numasSlots (nu :: rest)) = slotsF nu.slots + slotsF (numasSlots rest) := by
      rw [hsplit, slotsF_append]
    by_cases hc : n ≤ slotsF nu.slots
    · refine ⟨{ nu with slots := specAcquireFirstFree j n nu.slots } :: rest, ?_, ?_⟩
      · simp only [slotWalkNumas, slotWalkSlots_spec j nu.slots n hn, decide_eq_true hc,
          if_true]
        have h1 : n - min n (slotsF nu.slots) = 0 := by omega
        have h2 : n - min n (slotsF (numasSlots (nu :: rest))) = 0 := by rw [hF]; omega
        have h3 : decide (n ≤ slotsF (numasSlots (nu :: rest))) = true := by
          rw [decide_eq_true_eq, hF]
          omega
        rw [h1, h2, h3]
      · have hout : numasSlots ({ nu with slots := specAcquireFirstFree j n nu.slots } :: rest)
            = specAcquireFirstFree j n nu.slots ++ numasSlots rest := by
          simp [numasSlots]
        rw [hout, hsplit, specAFF_append]
        have h1 : n - min n (slotsF nu.slots) = 0 := by omega
        rw [h1, specAFF_zero]
    · have hn1 : 1 ≤ n - min n (slotsF nu.slots) := by omega
      obtain ⟨l2r, hok, hslots⟩ := slotWalkNumas_spec j rest (n - min n (slotsF nu.slots)) hn1
      refine ⟨{ nu with slots := specAcquireFirstFree j n nu.slots } :: l2r, ?_, ?_⟩
      · simp only [slotWalkNumas, slotWalkSlots_spec j nu.slots n hn,
          decide_eq_false hc, if_false, hok]
        have h1 : n - min n (slotsF nu.slots) - min (n - min n (slotsF nu.slots))
              (slotsF (numasSlots rest))
            = n - min n (slotsF (numasSlots (nu :: rest))) := by rw [hF]; omega
        have h2 : decide (n - min n (slotsF nu.slots) ≤ slotsF (numasSlots rest))
            = decide (n ≤ slotsF (numasSlots (nu :: rest))) := by
          rw [decide_eq_decide, hF]
          omega
        rw [h1, h2]
        simp
      · have hout : numasSlots ({ nu with slots := specAcquireFirstFree j n nu.slots } :: l2r)
            = specAcquireFirstFree j n nu.slots ++ numasSlots l2r := by
          simp [numasSlots]
        rw [hout, hslots, hsplit, specAFF_append]

theorem slotWalkNodes_spec (j : Nat) :
    ∀ (l : List Node) (n : Nat), 1 ≤ n →
      ∃ l2, slotWalkNodes j l n
          = .ok (l2, n - min n (slotsF (nodesSlots l)), decide (n ≤ slotsF (nodesSlots l))) ∧
        nodesSlots l2 = specAcquireFirstFree j n (nodesSlots l)
  | [], n, hn => by
    refine ⟨[], ?_, by simp [nodesSlots, specAFF_nil]⟩
    have h1 : n - min n (slotsF (nodesSlots [])) = n := by simp [nodesSlots, slotsF]
    have h2 : decide (n ≤ slotsF (nodesSlots [])) = false := by
      rw [decide_eq_false_iff_not]
      simp [nodesSlots, slotsF]
      omega
    rw [h1, h2]
    rfl
  | nd :: rest, n, hn => by
    have hsplit : nodesSlots (nd :: rest) = numasSlots nd.numas ++ nodesSlots rest := by
      simp [nodesSlots, numasSlots]
    have hF : slotsF (nodesSlots (nd :: rest))
        = slotsF (numasSlots nd.numas) + slotsF (nodesSlots rest) := by
      rw [hsplit, slotsF_append]
    obtain ⟨lnu, hoknu, hslotsnu⟩ := slotWalkNumas_spec j nd.numas n hn
    by_cases hc : n ≤ slotsF (numasSlots nd.numas)
    · refine ⟨{ nd with numas := lnu } :: rest, ?_, ?_⟩
      · simp only [slotWalkNodes, hoknu, decide_eq_true hc, if_true]
        have h1 : n - min n (slotsF (numasSlots nd.numas)) = 0 := by omega
        have h2 : n - min n (slotsF (nodesSlots (nd :: rest))) = 0 := by rw [hF]; omega
        have h3 : decide (n ≤ slotsF (nodesSlots (nd :: rest))) = true := by
          rw [decide_eq_true_eq, hF]
          omega
        rw [h1, h2, h3]
      · have hout : nodesSlots ({ nd with numas := lnu } :: rest)
            = numasSlots lnu ++ nodesSlots rest := by
          simp [nodesSlots, numasSlots]
        rw [hout, hslotsnu, hsplit, specAFF_append]
        have h1 : n - min n (slotsF (numasSlots nd.numas)) = 0 := by omega
        rw [h1, specAFF_zero]
    · have hn1 : 1 ≤ n - min n (slotsF (numasSlots nd.numas)) := by omega
      obtain ⟨l2r, hok, hslots⟩ :=
        slotWalkNodes_spec j rest (n - min n (slotsF (numasSlots nd.numas))) hn1
      refine ⟨{ nd with numas := lnu } :: l2r, ?_, ?_⟩
      · simp only [slotWalkNodes, hoknu, decide_eq_false hc, if_false, hok]
        have h1 : n - min n (slotsF (numasSlots nd.numas))
              - min (n - min n (slotsF (numasSlots nd.numas))) (slotsF (nodesSlots rest))
            = n - min n (slotsF (nodesSlots (nd :: rest))) := by rw [hF]; omega
        have h2 : decide (n - min n (slotsF (numasSlots nd.numas)) ≤ slotsF (nodesSlots rest))
            = decide (n ≤ slotsF (nodesSlots (nd :: rest))) := by
          rw [decide_eq_decide, hF]
          omega
        rw [h1, h2]
        simp
      · have hout : nodesSlots ({ nd with numas := lnu } :: l2r)
            = numasSlots lnu ++ nodesSlots l2r := by
          simp [nodesSlots, numasSlots]
        rw [hout, hslots, hslotsnu, hsplit, specAFF_append]

/-- C8: for a fixed-count job of order `N ≥ 1` with slot locality the walk
acquires exactly the first `N` free slots of the linear slot walk, leaving
every other slot unchanged (the result is `specAcquireFirstFree`, the
spec-side description); with fewer than `N` free slots it fails with the
CapacityError citing the requested count `N`. -/
theorem c8_slot_walk_first_n_or_capacity_error
    (pm : ProcMap) (N j : Nat) (oe : Bool) (hN : 1 ≤ N) :
    (N ≤ pm.count_free_slots →
      ∃ pm2, pm.map_for_defined_size "slot" N j oe = .ok pm2 ∧
        pm2.each_slot = specAcquireFirstFree j N pm.each_slot) ∧
    (pm.count_free_slots < N →
      pm.map_for_defined_size "slot" N j oe = .error (.notEnoughSlots N)) := by
  have hred : pm.map_for_defined_size "slot" N j oe
      = (match slotWalkNodes j pm.nodes N with
         | .error e => .error e
         | .ok (nodes2, n2, _) =>
           if n2 ≠ 0 then .error (.notEnoughSlots N) else .ok { nodes := nodes2 }) := rfl
  have hfree : pm.count_free_slots = slotsF (nodesSlots pm.nodes) := by
    simp [ProcMap.count_free_slots, ProcMap.each_slot, slotsF]
  obtain ⟨l2, hok, hslots⟩ := slotWalkNodes_spec j pm.nodes N hN
  constructor
  · intro hle
    rw [hfree] at hle
    refine ⟨{ nodes := l2 }, ?_, ?_⟩
    · rw [hred, hok]
      have h0 : N - min N (slotsF (nodesSlots pm.nodes)) = 0 := by
        simp [Nat.min_def]; split_ifs <;> omega
      rw [h0]
      simp
    · simpa [ProcMap.each_slot] using hslots
  · intro hlt
    rw [hfree] at hlt
    rw [hred, hok]
    have h0 : N - min N (slotsF (nodesSlots pm.nodes)) ≠ 0 := by
      simp [Nat.min_def]; split_ifs <;> omega
    simp [h0]

/-- C8 witness: the S4 scenario — an inventory with 3 free slots and a
5-slot request fails with the CapacityError citing 5; a 2-slot request over
the same inventory acquires exactly the first two slots. -/
theorem c8_witness :
    ProcMap.map_for_defined_size
      { nodes := [{ host := "h1", numas := [{ id := 0, slots :=
          [{ rank := 0, pu := [0], job := none },
           { rank := 1, pu := [1], job := none },
           { rank := 2, pu := [2], job := none }] }] }] }
      "slot" 5 0 true = .error (.notEnoughSlots 5) ∧
    (∃ pm2, ProcMap.map_for_defined_size
      { nodes := [{ host := "h1", numas := [{ id := 0, slots :=
          [{ rank := 0, pu := [0], job := none },
           { rank := 1, pu := [1], job := none },
           { rank := 2, pu := [2], job := none }] }] }] }
      "slot" 2 7 true = .ok pm2 ∧
      pm2.each_slot =
        [{ rank := 0, pu := [0], job := some 7 },
         { rank := 1, pu := [1], job := some 7 },
         { rank := 2, pu := [2], job := none }]) := by
  constructor
  · exact (c8_slot_walk_first_n_or_capacity_error
      { nodes := [{ host := "h1", numas := [{ id := 0, slots :=
          [{ rank := 0, pu := [0], job := none },
           { rank := 1, pu := [1], job := none },
           { rank := 2, pu := [2], job := none }] }] }] }
      5 0 true (by decide)).2 (by decide)
  · obtain ⟨pm2, h1, h2⟩ :=
      (c8_slot_walk_first_n_or_capacity_error
        { nodes := [{ host := "h1", numas := [{ id := 0, slots :=
            [{ rank := 0, pu := [0], job := none },
             { rank := 1, pu := [1], job := none },
             { rank := 2, pu := [2], job := none }] }] }] }
        2 7 true (by decide)).1 (by decide)
    exact ⟨pm2, h1, by rw [h2]; decide⟩

/-! ## Grammar lemmas (claim C7) -/

theorem matchAt_prefix {u ord : List Char} {loc : Option (List Char)}
    (h : matchAt u = some (ord, loc)) :
    ∃ tail, u = ord ++ loc.getD [] ++ tail := by
  cases u with
  | nil => cases h
  | cons c rest =>
    simp only [matchAt] at h
    by_cases hAE : c = 'A' ∨ c = 'E'
    · rw [if_pos hAE] at h
      by_cases he : (rest.takeWhile isLowerChar).isEmpty
      · rw [if_pos he] at h
        obtain ⟨h1, h2⟩ := Prod.mk.inj (Option.some.inj h)
        subst h1; subst h2
        exact ⟨rest, by simp⟩
      · rw [if_neg he] at h
        obtain ⟨h1, h2⟩ := Prod.mk.inj (Option.some.inj h)
        subst h1; subst h2
        exact ⟨rest.dropWhile isLowerChar, by
          simp [List.takeWhile_append_dropWhile]⟩
    · rw [if_neg hAE] at h
      by_cases hd : isDigitChar c
      · rw [if_pos hd] at h
        by_cases he : ((rest.dropWhile isDigitChar).takeWhile isLowerChar).isEmpty
        · rw [if_pos he] at h
          obtain ⟨h1, h2⟩ := Prod.mk.inj (Option.some.inj h)
          subst h1; subst h2
          exact ⟨rest.dropWhile isDigitChar, by
            simp [List.takeWhile_append_dropWhile]⟩
        · rw [if_neg he] at h
          obtain ⟨h1, h2⟩ := Prod.mk.inj (Option.some.inj h)
          subst h1; subst h2
          refine ⟨(rest.dropWhile isDigitChar).dropWhile isLowerChar, ?_⟩
          simp only [Option.getD_some, List.cons_append, List.append_assoc,
            List.cons.injEq, true_and]
          rw [List.takeWhile_append_dropWhile, List.takeWhile_append_dropWhile]
      · rw [if_neg hd] at h
        cases h

theorem findMatch_infix {s ord : List Char} {loc : Option (List Char)} :
    findMatch s = some (ord, loc) →
    ∃ pre tail, s = pre ++ (ord ++ loc.getD []) ++ tail := by
  induction s with
  | nil => intro h; cases h
  | cons c rest ih =>
    intro h
    simp only [findMatch] at h
    cases hm : matchAt (c :: rest) with
    | some r =>
      have h2 : matchAt (c :: rest) = some (ord, loc) := by
        rw [hm]
        rw [hm] at h
        exact h
      obtain ⟨tail, htail⟩ := matchAt_prefix h2
      exact ⟨[], tail, by simpa using htail⟩
    | none =>
      rw [hm] at h
      obtain ⟨pre, tail, hpt⟩ := ih h
      exact ⟨c :: pre, tail, by simp [hpt]⟩

theorem locTok_cases {l : List Char} (h : locTok l = true) :
    l = "numa".toList ∨ l = "slot".toList ∨ l = "node".toList := by
  simp only [locTok, Bool.or_eq_true, decide_eq_true_eq] at h
  tauto

theorem digit_not_AE {c : Char} (hd : isDigitChar c = true) : ¬ (c = 'A' ∨ c = 'E') := by
  rintro (rfl | rfl) <;> simp [isDigitChar] at hd

/-- C7 amended: the regex of Job::parse is unanchored, so the loader
accepts any string containing a grammar match, and the re-composed
`order ++ (loc ?? "")` is the leftmost matched infix of the accepted
string, not necessarily the whole string; restricted to the canonical
grammar `ord [loc]` acceptance and the exact round-trip do hold. -/
theorem c7_grammar_leftmost_infix_and_canonical_roundtrip
    (s ord : List Char) (loc : Option (List Char)) :
    (parsePlacement s = .ok (ord, loc) → List.IsInfix (ord ++ loc.getD []) s) ∧
    (specCanonical s = true →
      ∃ ord2 loc2, parsePlacement s = .ok (ord2, loc2) ∧ ord2 ++ loc2.getD [] = s) := by
  constructor
  · intro h
    simp only [parsePlacement] at h
    cases hf : findMatch s with
    | none => rw [hf] at h; cases h
    | some r =>
      rw [hf] at h
      obtain ⟨o, lo⟩ := r
      obtain ⟨pre, tail, hpt⟩ := findMatch_infix hf
      cases lo with
      | some l =>
        have h2 : (if l = "numa".toList ∨ l = "slot".toList ∨ l = "node".toList
            then (Except.ok (o, some l) : Except MapErr (List Char × Option (List Char)))
            else .error (.noSuchLocSpecifier (String.mk l))) = .ok (ord, loc) := h
        by_cases hv : l = "numa".toList ∨ l = "slot".toList ∨ l = "node".toList
        · rw [if_pos hv] at h2
          obtain ⟨h3, h4⟩ := Prod.mk.inj (Except.ok.inj h2)
          subst h3; subst h4
          exact ⟨pre, tail, hpt.symm⟩
        · rw [if_neg hv] at h2
          cases h2
      | none =>
        have h2 : (if o = ['E']
            then (Except.error .eRequiresLoc : Except MapErr (List Char × Option (List Char)))
            else .ok (o, none)) = .ok (ord, loc) := h
        by_cases hE : o = ['E']
        · rw [if_pos hE] at h2
          cases h2
        · rw [if_neg hE] at h2
          obtain ⟨h3, h4⟩ := Prod.mk.inj (Except.ok.inj h2)
          subst h3; subst h4
          exact ⟨pre, tail, hpt.symm⟩
  · intro h
    cases s with
    | nil => cases h
    | cons c rest =>
      simp only [specCanonical] at h
      by_cases hA : c = 'A'
      · subst hA
        rw [if_pos rfl] at h
        rcases Bool.or_eq_true .. ▸ h with he | hl
        · have : rest = [] := by simpa using he
          subst this
          exact ⟨['A'], none, by decide, by decide⟩
        · rcases locTok_cases hl with rfl | rfl | rfl
          · exact ⟨['A'], some "numa".toList, by decide, by decide⟩
          · exact ⟨['A'], some "slot".toList, by decide, by decide⟩
          · exact ⟨['A'], some "node".toList, by decide, by decide⟩
      · rw [if_neg hA] at h
        by_cases hE : c = 'E'
        · subst hE
          rw [if_pos rfl] at h
          rcases locTok_cases h with rfl | rfl | rfl
          · exact ⟨['E'], some "numa".toList, by decide, by decide⟩
          · exact ⟨['E'], some "slot".toList, by decide, by decide⟩
          · exact ⟨['E'], some "node".toList, by decide, by decide⟩
        · rw [if_neg hE] at h
          by_cases hd : isDigitChar c
          · rw [if_pos hd] at h
            have hnAE : ¬ (c = 'A' ∨ c = 'E') := by tauto
            have hordE : ¬ (c :: rest.takeWhile isDigitChar = ['E']) := by
              intro hc
              exact hE (List.cons.inj hc).1
            rcases Bool.or_eq_true .. ▸ h with he | hl
            · have hdrop : rest.dropWhile isDigitChar = [] := by simpa using he
              have hmatch : matchAt (c :: rest)
                  = some (c :: rest.takeWhile isDigitChar, none) := by
                simp only [matchAt, if_neg hnAE, if_pos hd, hdrop]
                simp
              have hfind : findMatch (c :: rest)
                  = some (c :: rest.takeWhile isDigitChar, none) := by
                simp only [findMatch, hmatch]
              refine ⟨c :: rest.takeWhile isDigitChar, none, ?_, ?_⟩
              · simp only [parsePlacement, hfind]
                rw [if_neg hordE]
              · have hsplit := List.takeWhile_append_dropWhile (p := isDigitChar) (l := rest)
                rw [hdrop, List.append_nil] at hsplit
                simp [hsplit]
            · have hloc := locTok_cases hl
              have htw : (rest.dropWhile isDigitChar).takeWhile isLowerChar
                  = rest.dropWhile isDigitChar := by
                rcases hloc with hq | hq | hq <;> rw [hq] <;> decide
              have hne2 : (rest.dropWhile isDigitChar).isEmpty = false := by
                rcases hloc with hq | hq | hq <;> rw [hq] <;> decide
              have hmatch : matchAt (c :: rest)
                  = some (c :: rest.takeWhile isDigitChar,
                      some (rest.dropWhile isDigitChar)) := by
                simp only [matchAt, if_neg hnAE, if_pos hd, htw, hne2]
                simp
              have hfind : findMatch (c :: rest)
                  = some (c :: rest.takeWhile isDigitChar,
                      some (rest.dropWhile isDigitChar)) := by
                simp only [findMatch, hmatch]
              refine ⟨c :: rest.takeWhile isDigitChar,
                some (rest.dropWhile isDigitChar), ?_, ?_⟩
              · simp only [parsePlacement, hfind]
                rw [if_pos hloc]
              · simp [List.takeWhile_append_dropWhile]
          · rw [if_neg hd] at h
            cases h

/-- C7 counterexample: the string "A5" is accepted (the unanchored regex
matches its leftmost "A"), but the re-composed order + loc is "A", not
"A5": the loader accepts strings outside the canonical grammar and the
round-trip fails on them. -/
theorem c7_counterexample_unanchored_accepts_A5 :
    parsePlacement "A5".toList = .ok (['A'], none) ∧
    ['A'] ++ ([] : List Char) ≠ "A5".toList ∧
    specCanonical "A5".toList = false := by decide

/-- C7 witness: the accepted non-canonical string "xx3slot77" re-composes
to its leftmost infix "3slot"; the canonical string "4numa" round-trips
exactly. -/
theorem c7_witness :
    List.IsInfix (['3'] ++ (some "slot".toList).getD []) "xx3slot77".toList ∧
    (∃ ord2 loc2, parsePlacement "4numa".toList = .ok (ord2, loc2) ∧
      ord2 ++ loc2.getD [] = "4numa".toList) := by
  constructor
  · exact (c7_grammar_leftmost_infix_and_canonical_roundtrip
      "xx3slot77".toList ['3'] (some "slot".toList)).1 (by decide)
  · exact (c7_grammar_leftmost_infix_and_canonical_roundtrip
      "4numa".toList [] none).2 (by decide)

/-! ## Acquisition-primitive lemmas (claims C2, C6, C9) -/

theorem numasSlots_nil : numasSlots [] = [] := rfl

theorem numasSlots_cons (nu : Numa) (rest : List Numa) :
    numasSlots (nu :: rest) = nu.slots ++ numasSlots rest := by
  simp [numasSlots]

theorem nodesSlots_nil : nodesSlots [] = [] := rfl

theorem nodesSlots_cons (nd : Node) (rest : List Node) :
    nodesSlots (nd :: rest) = numasSlots nd.numas ++ nodesSlots rest := by
  simp [nodesSlots, numasSlots]

theorem slotStep_trans {j : Nat} {a b c : Slot}
    (h1 : SlotStep j a b) (h2 : SlotStep j b c) : SlotStep j a c := by
  rcases h2 with rfl | ⟨hb, rfl⟩
  · exact h1
  · rcases h1 with rfl | ⟨ha, rfl⟩
    · exact Or.inr ⟨hb, rfl⟩
    · simp at hb

theorem affs_some_props {j : Nat} :
    ∀ {l l2 : List Slot}, acquireFirstFreeSlot j l = some l2 →
      SlotsRel (SlotStep j) l l2 ∧
      slotsA j l2 = slotsA j l + 1 ∧ slotsF l = slotsF l2 + 1
  | [], _, h => by cases h
  | s :: rest, l2, h => by
    simp only [acquireFirstFreeSlot] at h
    by_cases hf : s.is_free
    · rw [if_pos hf] at h
      obtain rfl := Option.some.inj h
      have hj := slot_free_job_none hf
      refine ⟨.cons (Or.inr ⟨hj, rfl⟩) (SlotsRel.self (slotStep_refl j) rest), ?_, ?_⟩
      · rw [slotsA_set_head, slotsA_cons_of_none j hj]
      · rw [slotsF_set_head, slotsF_cons_of_none hj]
    · rw [if_neg hf] at h
      cases hrec : acquireFirstFreeSlot j rest with
      | none => rw [hrec] at h; cases h
      | some rest2 =>
        rw [hrec] at h
        obtain rfl := Option.some.inj h
        obtain ⟨hrel, hA, hF⟩ := affs_some_props hrec
        have hj := slot_not_free_job_ne hf
        refine ⟨.cons (slotStep_refl j s) hrel, ?_, ?_⟩
        · rw [slotsA_cons, slotsA_cons, hA]; omega
        · rw [slotsF_cons_of_ne hj, slotsF_cons_of_ne hj, hF]

theorem affs_none_of_full {j : Nat} :
    ∀ {l : List Slot}, slotsF l = 0 → acquireFirstFreeSlot j l = none
  | [], _ => rfl
  | s :: rest, h => by
    have hj : ¬ s.job = none := by
      intro hc
      rw [slotsF_cons_of_none hc] at h
      omega
    have hf : ¬ s.is_free = true := by
      simpa [Slot.is_free, Option.isNone_iff_eq_none] using hj
    rw [slotsF_cons_of_ne hj] at h
    simp only [acquireFirstFreeSlot, if_neg hf, affs_none_of_full h]
    rfl

theorem affs_some_of_free {j : Nat} :
    ∀ {l : List Slot}, 0 < slotsF l → ∃ l2, acquireFirstFreeSlot j l = some l2
  | [], h => by simp [slotsF] at h
  | s :: rest, h => by
    by_cases hf : s.is_free
    · exact ⟨{ s with job := some j } :: rest,
        by simp only [acquireFirstFreeSlot, if_pos hf]⟩
    · have hj := slot_not_free_job_ne hf
      rw [slotsF_cons_of_ne hj] at h
      obtain ⟨l2, hl2⟩ := affs_some_of_free (j := j) (l := rest) h
      exact ⟨s :: l2, by simp only [acquireFirstFreeSlot, if_neg hf]; rw [hl2]; rfl⟩

theorem numa_acquire_ok_props {j : Nat} {nu nu2 : Numa}
    (h : nu.acquire j = .ok nu2) :
    SlotsRel (SlotStep j) nu.slots nu2.slots ∧
    slotsA j nu2.slots = slotsA j nu.slots + 1 ∧ slotsF nu.slots = slotsF nu2.slots + 1 := by
  simp only [Numa.acquire] at h
  cases hrec : acquireFirstFreeSlot j nu.slots with
  | none => rw [hrec] at h; cases h
  | some slots2 =>
    rw [hrec] at h
    obtain rfl := Except.ok.inj h
    exact affs_some_props hrec

theorem numa_acquire_of_full {j : Nat} {nu : Numa} (h : slotsF nu.slots = 0) :
    nu.acquire j = .error (.noFreeSlotOnNuma nu.id) := by
  simp only [Numa.acquire, affs_none_of_full h]

theorem numa_acquire_ok_of_free {j : Nat} {nu : Numa} (h : 0 < slotsF nu.slots) :
    ∃ nu2, nu.acquire j = .ok nu2 := by
  obtain ⟨l2, hl2⟩ := affs_some_of_free (j := j) h
  exact ⟨{ nu with slots := l2 }, by simp only [Numa.acquire, hl2]⟩

theorem numa_acquire_error_full {j : Nat} {nu : Numa} {e : MapErr}
    (h : nu.acquire j = .error e) : slotsF nu.slots = 0 := by
  rcases Nat.eq_zero_or_pos (slotsF nu.slots) with h0 | h0
  · exact h0
  · obtain ⟨nu2, hnu2⟩ := numa_acquire_ok_of_free (j := j) h0
    rw [hnu2] at h
    cases h

theorem afn_some_props {j : Nat} :
    ∀ {l l2 : List Numa}, acquireFirstNuma j l = some l2 →
      SlotsRel (SlotStep j) (numasSlots l) (numasSlots l2) ∧
      slotsA j (numasSlots l2) = slotsA j (numasSlots l) + 1 ∧
      slotsF (numasSlots l) = slotsF (numasSlots l2) + 1
  | [], _, h => by cases h
  | nu :: rest, l2, h => by
    simp only [acquireFirstNuma] at h
    cases hacq : nu.acquire j with
    | ok nu2 =>
      rw [hacq] at h
      obtain rfl := Option.some.inj h
      obtain ⟨hrel, hA, hF⟩ := numa_acquire_ok_props hacq
      rw [numasSlots_cons, numasSlots_cons]
      refine ⟨SlotsRel.append hrel (SlotsRel.self (slotStep_refl j) _), ?_, ?_⟩
      · rw [slotsA_append, slotsA_append, hA]; omega
      · rw [slotsF_append, slotsF_append, hF]; omega
    | error e =>
      rw [hacq] at h
      cases hrec : acquireFirstNuma j rest with
      | none => rw [hrec] at h; cases h
      | some rest2 =>
        rw [hrec] at h
        obtain rfl := Option.some.inj h
        obtain ⟨hrel, hA, hF⟩ := afn_some_props hrec
        rw [numasSlots_cons, numasSlots_cons]
        refine ⟨SlotsRel.append (SlotsRel.self (slotStep_refl j) _) hrel, ?_, ?_⟩
        · rw [slotsA_append, slotsA_append, hA]; omega
        · rw [slotsF_append, slotsF_append, hF]; omega

theorem afn_none_of_full {j : Nat} :
    ∀ {l : List Numa}, slotsF (numasSlots l) = 0 → acquireFirstNuma j l = none
  | [], _ => rfl
  | nu :: rest, h => by
    rw [numasSlots_cons, slotsF_append] at h
    have h1 : slotsF nu.slots = 0 := by omega
    have h2 : slotsF (numasSlots rest) = 0 := by omega
    simp only [acquireFirstNuma, numa_acquire_of_full h1, afn_none_of_full h2]
    rfl

theorem afn_some_of_free {j : Nat} :
    ∀ {l : List Numa}, 0 < slotsF (numasSlots l) → ∃ l2, acquireFirstNuma j l = some l2
  | [], h => by simp [numasSlots_nil, slotsF] at h
  | nu :: rest, h => by
    rw [numasSlots_cons, slotsF_append] at h
    rcases Nat.eq_zero_or_pos (slotsF nu.slots) with h0 | h0
    · obtain ⟨l2, hl2⟩ := afn_some_of_free (j := j) (l := rest) (by omega)
      refine ⟨nu :: l2, ?_⟩
      simp only [acquireFirstNuma, numa_acquire_of_full h0]
      rw [hl2]
      rfl
    · obtain ⟨nu2, hnu2⟩ := numa_acquire_ok_of_free (j := j) h0
      exact ⟨nu2 :: rest, by simp only [acquireFirstNuma, hnu2]⟩

theorem node_acquire_ok_props {j : Nat} {nd nd2 : Node}
    (h : nd.acquire j = .ok nd2) :
    SlotsRel (SlotStep j) (numasSlots nd.numas) (numasSlots nd2.numas) ∧
    slotsA j (numasSlots nd2.numas) = slotsA j (numasSlots nd.numas) + 1 ∧
    slotsF (numasSlots nd.numas) = slotsF (numasSlots nd2.numas) + 1 := by
  simp only [Node.acquire] at h
  cases hrec : acquireFirstNuma j nd.numas with
  | none => rw [hrec] at h; cases h
  | some numas2 =>
    rw [hrec] at h
    obtain rfl := Except.ok.inj h
    exact afn_some_props hrec

theorem node_acquire_of_full {j : Nat} {nd : Node} (h : slotsF (numasSlots nd.numas) = 0) :
    nd.acquire j = .error (.noFreeSlotOnNode nd.host) := by
  simp only [Node.acquire, afn_none_of_full h]

theorem node_acquire_ok_of_free {j : Nat} {nd : Node}
    (h : 0 < slotsF (numasSlots nd.numas)) : ∃ nd2, nd.acquire j = .ok nd2 := by
  obtain ⟨l2, hl2⟩ := afn_some_of_free (j := j) h
  exact ⟨{ nd with numas := l2 }, by simp only [Node.acquire, hl2]⟩

theorem node_acquire_error_full {j : Nat} {nd : Node} {e : MapErr}
    (h : nd.acquire j = .error e) : slotsF (numasSlots nd.numas) = 0 := by
  rcases Nat.eq_zero_or_pos (slotsF (numasSlots nd.numas)) with h0 | h0
  · exact h0
  · obtain ⟨nd2, hnd2⟩ := node_acquire_ok_of_free (j := j) h0
    rw [hnd2] at h
    cases h

/-! ## Pass and while-loop lemmas, numa locality -/

theorem numaPassNumas_ok {j : Nat} {oe : Bool} :
    ∀ {l : List Numa} {n : Nat} {l2 : List Numa} {n2 : Nat},
      numaPassNumas j oe l n = .ok (l2, n2) →
      n2 ≤ n ∧ SlotsRel (SlotStep j) (numasSlots l) (numasSlots l2) ∧
      slotsA j (numasSlots l2) = slotsA j (numasSlots l) + (n - n2) ∧
      slotsF (numasSlots l) = slotsF (numasSlots l2) + (n - n2)
  | [], n, l2, n2, h => by
    obtain ⟨rfl, rfl⟩ := Prod.mk.inj (Except.ok.inj h)
    exact ⟨le_rfl, SlotsRel.self (slotStep_refl j) _, by omega, by omega⟩
  | nu :: rest, n, l2, n2, h => by
    simp only [numaPassNumas] at h
    split at h
    case _ nu2 hacq =>
      obtain ⟨hrel1, hA1, hF1⟩ := numa_acquire_ok_props hacq
      split at h
      case _ => exact absurd h (by simp)
      case _ m =>
        by_cases hm : m = 0
        · rw [if_pos hm] at h
          subst hm
          obtain ⟨rfl, rfl⟩ := Prod.mk.inj (Except.ok.inj h)
          rw [numasSlots_cons, numasSlots_cons]
          refine ⟨by omega,
            SlotsRel.append hrel1 (SlotsRel.self (slotStep_refl j) _), ?_, ?_⟩
          · rw [slotsA_append, slotsA_append, hA1]; omega
          · rw [slotsF_append, slotsF_append, hF1]; omega
        · rw [if_neg hm] at h
          split at h
          case _ => exact absurd h (by simp)
          case _ rest2 n3 hrec =>
            obtain ⟨rfl, rfl⟩ := Prod.mk.inj (Except.ok.inj h)
            obtain ⟨hle, hrel2, hA2, hF2⟩ := numaPassNumas_ok hrec
            rw [numasSlots_cons, numasSlots_cons]
            refine ⟨by omega, SlotsRel.append hrel1 hrel2, ?_, ?_⟩
            · rw [slotsA_append, slotsA_append, hA1, hA2]; omega
            · rw [slotsF_append, slotsF_append, hF1, hF2]; omega
    case _ e hacq =>
      by_cases hoe : oe = true
      · rw [if_pos hoe] at h
        exact absurd h (by simp)
      · rw [if_neg hoe] at h
        split at h
        case _ => exact absurd h (by simp)
        case _ rest2 n3 hrec =>
          obtain ⟨rfl, rfl⟩ := Prod.mk.inj (Except.ok.inj h)
          obtain ⟨hle, hrel2, hA2, hF2⟩ := numaPassNumas_ok hrec
          rw [numasSlots_cons, numasSlots_cons]
          refine ⟨by omega,
            SlotsRel.append (SlotsRel.self (slotStep_refl j) _) hrel2, ?_, ?_⟩
          · rw [slotsA_append, slotsA_append, hA2]; omega
          · rw [slotsF_append, slotsF_append, hF2]; omega

theorem numaPassNumas_false_total {j : Nat} :
    ∀ (l : List Numa) (n : Nat), 1 ≤ n →
      ∃ l2 n2, numaPassNumas j false l n = .ok (l2, n2)
  | [], n, _ => ⟨[], n, rfl⟩
  | nu :: rest, n, hn => by
    cases hacq : nu.acquire j with
    | ok nu2 =>
      cases n with
      | zero => omega
      | succ m =>
        by_cases hm : m = 0
        · subst hm
          exact ⟨nu2 :: rest, 0, by simp only [numaPassNumas, hacq]; rfl⟩
        · obtain ⟨l2, n2, hrec⟩ := numaPassNumas_false_total (j := j) rest m (by omega)
          refine ⟨nu2 :: l2, n2, ?_⟩
          simp only [numaPassNumas, hacq, if_neg hm, hrec]
    | error e =>
      obtain ⟨l2, n2, hrec⟩ := numaPassNumas_false_total (j := j) rest n hn
      refine ⟨nu :: l2, n2, ?_⟩
      simp only [numaPassNumas, hacq, hrec]
      rw [if_neg (by simp)]

theorem numaPassNumas_progress {j : Nat} {oe : Bool} :
    ∀ {l : List Numa} {n : Nat} {l2 : List Numa} {n2 : Nat},
      numaPassNumas j oe l n = .ok (l2, n2) → 1 ≤ n →
      0 < slotsF (numasSlots l) → n2 < n
  | [], n, l2, n2, h, hn, hfree => by
    rw [numasSlots_nil] at hfree
    simp [slotsF] at hfree
  | nu :: rest, n, l2, n2, h, hn, hfree => by
    simp only [numaPassNumas] at h
    split at h
    case _ nu2 hacq =>
      split at h
      case _ => exact absurd h (by simp)
      case _ m =>
        by_cases hm : m = 0
        · rw [if_pos hm] at h
          subst hm
          obtain ⟨rfl, rfl⟩ := Prod.mk.inj (Except.ok.inj h)
          omega
        · rw [if_neg hm] at h
          split at h
          case _ => exact absurd h (by simp)
          case _ rest2 n3 hrec =>
            obtain ⟨rfl, rfl⟩ := Prod.mk.inj (Except.ok.inj h)
            have := (numaPassNumas_ok hrec).1
            omega
    case _ e hacq =>
      have hfull := numa_acquire_error_full hacq
      rw [numasSlots_cons, slotsF_append, hfull] at hfree
      by_cases hoe : oe = true
      · rw [if_pos hoe] at h
        exact absurd h (by simp)
      · rw [if_neg hoe] at h
        split at h
        case _ => exact absurd h (by simp)
        case _ rest2 n3 hrec =>
          obtain ⟨rfl, rfl⟩ := Prod.mk.inj (Except.ok.inj h)
          exact numaPassNumas_progress hrec hn (by omega)

theorem numaPassNodes_ok {j : Nat} {oe : Bool} :
    ∀ {l : List Node} {n : Nat} {l2 : List Node} {n2 : Nat},
      numaPassNodes j oe l n = .ok (l2, n2) →
      n2 ≤ n ∧ SlotsRel (SlotStep j) (nodesSlots l) (nodesSlots l2) ∧
      slotsA j (nodesSlots l2) = slotsA j (nodesSlots l) + (n - n2) ∧
      slotsF (nodesSlots l) = slotsF (nodesSlots l2) + (n - n2)
  | [], n, l2, n2, h => by
    obtain ⟨rfl, rfl⟩ := Prod.mk.inj (Except.ok.inj h)
    exact ⟨le_rfl, SlotsRel.self (slotStep_refl j) _, by omega, by omega⟩
  | nd :: rest, n, l2, n2, h => by
    simp only [numaPassNodes] at h
    split at h
    case _ => exact absurd h (by simp)
    case _ numas2 n3 hpass =>
      obtain ⟨hle1, hrel1, hA1, hF1⟩ := numaPassNumas_ok hpass
      by_cases hz : n3 = 0
      · rw [if_pos hz] at h
        subst hz
        obtain ⟨rfl, rfl⟩ := Prod.mk.inj (Except.ok.inj h)
        rw [nodesSlots_cons, nodesSlots_cons]
        dsimp only
        refine ⟨by omega,
          SlotsRel.append hrel1 (SlotsRel.self (slotStep_refl j) _), ?_, ?_⟩
        · rw [slotsA_append, slotsA_append, hA1]; omega
        · rw [slotsF_append, slotsF_append, hF1]; omega
      · rw [if_neg hz] at h
        split at h
        case _ => exact absurd h (by simp)
        case _ rest2 n4 hrec =>
          obtain ⟨rfl, rfl⟩ := Prod.mk.inj (Except.ok.inj h)
          obtain ⟨hle2, hrel2, hA2, hF2⟩ := numaPassNodes_ok hrec
          rw [nodesSlots_cons, nodesSlots_cons]
          dsimp only
          refine ⟨by omega, SlotsRel.append hrel1 hrel2, ?_, ?_⟩
          · rw [slotsA_append, slotsA_append, hA1, hA2]; omega
          · rw [slotsF_append, slotsF_append, hF1, hF2]; omega

theorem numaPassNodes_false_total {j : Nat} :
    ∀ (l : List Node) (n : Nat), 1 ≤ n →
      ∃ l2 n2, numaPassNodes j false l n = .ok (l2, n2)
  | [], n, _ => ⟨[], n, rfl⟩
  | nd :: rest, n, hn => by
    obtain ⟨numas2, n2, hpass⟩ := numaPassNumas_false_total (j := j) nd.numas n hn
    by_cases hz : n2 = 0
    · subst hz
      exact ⟨{ nd with numas := numas2 } :: rest, 0, by
        simp only [numaPassNodes, hpass]; rfl⟩
    · obtain ⟨rest2, n3, hrec⟩ := numaPassNodes_false_total (j := j) rest n2 (by omega)
      refine ⟨{ nd with numas := numas2 } :: rest2, n3, ?_⟩
      simp only [numaPassNodes, hpass, if_neg hz, hrec]

theorem numaPassNodes_progress {j : Nat} {oe : Bool} :
    ∀ {l : List Node} {n : Nat} {l2 : List Node} {n2 : Nat},
      numaPassNodes j oe l n = .ok (l2, n2) → 1 ≤ n →
      0 < slotsF (nodesSlots l) → n2 < n
  | [], n, l2, n2, h, hn, hfree => by
    rw [nodesSlots_nil] at hfree
    simp [slotsF] at hfree
  | nd :: rest, n, l2, n2, h, hn, hfree => by
    simp only [numaPassNodes] at h
    split at h
    case _ => exact absurd h (by simp)
    case _ numas2 n3 hpass =>
      obtain ⟨hle1, hrel1, hA1, hF1⟩ := numaPassNumas_ok hpass
      rw [nodesSlots_cons, slotsF_append] at hfree
      by_cases hz : n3 = 0
      · rw [if_pos hz] at h
        subst hz
        obtain ⟨rfl, rfl⟩ := Prod.mk.inj (Except.ok.inj h)
        omega
      · rw [if_neg hz] at h
        split at h
        case _ => exact absurd h (by simp)
        case _ rest2 n4 hrec =>
          obtain ⟨rfl, rfl⟩ := Prod.mk.inj (Except.ok.inj h)
          rcases Nat.eq_zero_or_pos (slotsF (numasSlots nd.numas)) with h0 | h0
          · have hn3 : n3 = n := by omega
            subst hn3
            exact numaPassNodes_progress hrec hn (by omega)
          · have hlt : n3 < n := numaPassNumas_progress hpass hn h0
            have := (numaPassNodes_ok hrec).1
            omega

theorem numaWhile_ok {j : Nat} {oe : Bool} :
    ∀ (n : Nat) {nodes nodes2 : List Node},
      numaWhile j oe n nodes = .ok nodes2 →
      SlotsRel (SlotStep j) (nodesSlots nodes) (nodesSlots nodes2) ∧
      slotsA j (nodesSlots nodes2) = slotsA j (nodesSlots nodes) + n ∧
      slotsF (nodesSlots nodes) = slotsF (nodesSlots nodes2) + n := by
  intro n
  induction n using Nat.strong_induction_on with
  | _ n ih =>
    intro nodes nodes2 h
    rw [numaWhile.eq_def] at h
    by_cases hz : n = 0
    · rw [if_pos hz] at h
      obtain rfl := Except.ok.inj h
      subst hz
      exact ⟨SlotsRel.self (slotStep_refl j) _, by omega, by omega⟩
    · rw [if_neg hz] at h
      split at h
      case _ => exact absurd h (by simp)
      case _ nodes1 n1 hpass =>
        obtain ⟨hle, hrel1, hA1, hF1⟩ := numaPassNodes_ok hpass
        split at h
        case _ hlt =>
          obtain ⟨hrel2, hA2, hF2⟩ := ih n1 hlt h
          exact ⟨SlotsRel.comp (R := SlotStep j) (S := SlotStep j) (T := SlotStep j) (fun a b c hab hbc => slotStep_trans hab hbc) hrel1 hrel2,
            by omega, by omega⟩
        case _ => exact absurd h (by simp)

theorem numaWhile_success {j : Nat} :
    ∀ (n : Nat) (nodes : List Node), n ≤ slotsF (nodesSlots nodes) →
      ∃ nodes2, numaWhile j false n nodes = .ok nodes2 := by
  intro n
  induction n using Nat.strong_induction_on with
  | _ n ih =>
    intro nodes hfree
    by_cases hz : n = 0
    · subst hz
      exact ⟨nodes, by rw [numaWhile.eq_def]; simp⟩
    · obtain ⟨nodes1, n1, hpass⟩ := numaPassNodes_false_total (j := j) nodes n (by omega)
      have hprog : n1 < n := numaPassNodes_progress hpass (by omega) (by omega)
      obtain ⟨hle, hrel, hA, hF⟩ := numaPassNodes_ok hpass
      obtain ⟨nodes2, hrec⟩ := ih n1 hprog nodes1 (by omega)
      refine ⟨nodes2, ?_⟩
      rw [numaWhile.eq_def]
      simp only [if_neg hz, hpass]
      rw [dif_pos hprog]
      exact hrec

theorem numaPassNodes_abort {j : Nat} :
    ∀ (nodes : List Node) (nu : Numa) (restNu : List Numa) (n : Nat),
      nodes.flatMap Node.numas = nu :: restNu → slotsF nu.slots = 0 → 1 ≤ n →
      numaPassNodes j true nodes n = .error .noRoomOnNuma
  | [], nu, restNu, n, h, _, _ => by cases h
  | nd :: rest, nu, restNu, n, h, hfull, hn => by
    rw [List.flatMap_cons] at h
    cases hnumas : nd.numas with
    | nil =>
      rw [hnumas] at h
      simp only [List.nil_append] at h
      simp only [numaPassNodes, hnumas, numaPassNumas]
      rw [if_neg (by omega : ¬ n = 0)]
      rw [numaPassNodes_abort rest nu restNu n h hfull hn]
    | cons nu1 restNu1 =>
      rw [hnumas] at h
      have hnu : nu1 = nu := (List.cons.inj (by simpa using h)).1
      have hacq : nu1.acquire j = .error (.noFreeSlotOnNuma nu1.id) :=
        numa_acquire_of_full (by rw [hnu]; exact hfull)
      simp only [numaPassNodes, hnumas, numaPassNumas, hacq]
      rfl

theorem numaWhile_abort {j : Nat} {nodes : List Node} {nu : Numa} {restNu : List Numa}
    {n : Nat} (h : nodes.flatMap Node.numas = nu :: restNu)
    (hfull : slotsF nu.slots = 0) (hn : 1 ≤ n) :
    numaWhile j true n nodes = .error .noRoomOnNuma := by
  rw [numaWhile.eq_def]
  rw [if_neg (by omega : ¬ n = 0)]
  rw [numaPassNodes_abort nodes nu restNu n h hfull hn]

/-! ## Pass and while-loop lemmas, node locality -/

theorem nodePassNodes_ok {j : Nat} {oe : Bool} :
    ∀ {l : List Node} {n : Nat} {l2 : List Node} {n2 : Nat},
      nodePassNodes j oe l n = .ok (l2, n2) →
      n2 ≤ n ∧ SlotsRel (SlotStep j) (nodesSlots l) (nodesSlots l2) ∧
      slotsA j (nodesSlots l2) = slotsA j (nodesSlots l) + (n - n2) ∧
      slotsF (nodesSlots l) = slotsF (nodesSlots l2) + (n - n2)
  | [], n, l2, n2, h => by
    obtain ⟨rfl, rfl⟩ := Prod.mk.inj (Except.ok.inj h)
    exact ⟨le_rfl, SlotsRel.self (slotStep_refl j) _, by omega, by omega⟩
  | nd :: rest, n, l2, n2, h => by
    simp only [nodePassNodes] at h
    split at h
    case _ nd2 hacq =>
      obtain ⟨hrel1, hA1, hF1⟩ := node_acquire_ok_props hacq
      split at h
      case _ => exact absurd h (by simp)
      case _ m =>
        by_cases hm : m = 0
        · rw [if_pos hm] at h
          subst hm
          obtain ⟨rfl, rfl⟩ := Prod.mk.inj (Except.ok.inj h)
          rw [nodesSlots_cons, nodesSlots_cons]
          refine ⟨by omega,
            SlotsRel.append hrel1 (SlotsRel.self (slotStep_refl j) _), ?_, ?_⟩
          · rw [slotsA_append, slotsA_append, hA1]; omega
          · rw [slotsF_append, slotsF_append, hF1]; omega
        · rw [if_neg hm] at h
          split at h
          case _ => exact absurd h (by simp)
          case _ rest2 n3 hrec =>
            obtain ⟨rfl, rfl⟩ := Prod.mk.inj (Except.ok.inj h)
            obtain ⟨hle, hrel2, hA2, hF2⟩ := nodePassNodes_ok hrec
            rw [nodesSlots_cons, nodesSlots_cons]
            refine ⟨by omega, SlotsRel.append hrel1 hrel2, ?_, ?_⟩
            · rw [slotsA_append, slotsA_append, hA1, hA2]; omega
            · rw [slotsF_append, slotsF_append, hF1, hF2]; omega
    case _ e hacq =>
      by_cases hoe : oe = true
      · rw [if_pos hoe] at h
        exact absurd h (by simp)
      · rw [if_neg hoe] at h
        split at h
        case _ => exact absurd h (by simp)
        case _ rest2 n3 hrec =>
          obtain ⟨rfl, rfl⟩ := Prod.mk.inj (Except.ok.inj h)
          obtain ⟨hle, hrel2, hA2, hF2⟩ := nodePassNodes_ok hrec
          rw [nodesSlots_cons, nodesSlots_cons]
          refine ⟨by omega,
            SlotsRel.append (SlotsRel.self (slotStep_refl j) _) hrel2, ?_, ?_⟩
          · rw [slotsA_append, slotsA_append, hA2]; omega
          · rw [slotsF_append, slotsF_append, hF2]; omega

theorem nodePassNodes_false_total {j : Nat} :
    ∀ (l : List Node) (n : Nat), 1 ≤ n →
      ∃ l2 n2, nodePassNodes j false l n = .ok (l2, n2)
  | [], n, _ => ⟨[], n, rfl⟩
  | nd :: rest, n, hn => by
    cases hacq : nd.acquire j with
    | ok nd2 =>
      cases n with
      | zero => omega
      | succ m =>
        by_cases hm : m = 0
        · subst hm
          exact ⟨nd2 :: rest, 0, by simp only [nodePassNodes, hacq]; rfl⟩
        · obtain ⟨l2, n2, hrec⟩ := nodePassNodes_false_total (j := j) rest m (by omega)
          refine ⟨nd2 :: l2, n2, ?_⟩
          simp only [nodePassNodes, hacq, if_neg hm, hrec]
    | error e =>
      obtain ⟨l2, n2, hrec⟩ := nodePassNodes_false_total (j := j) rest n hn
      refine ⟨nd :: l2, n2, ?_⟩
      simp only [nodePassNodes, hacq, hrec]
      rw [if_neg (by simp)]

theorem nodePassNodes_progress {j : Nat} {oe : Bool} :
    ∀ {l : List Node} {n : Nat} {l2 : List Node} {n2 : Nat},
      nodePassNodes j oe l n = .ok (l2, n2) → 1 ≤ n →
      0 < slotsF (nodesSlots l) → n2 < n
  | [], n, l2, n2, h, hn, hfree => by
    rw [nodesSlots_nil] at hfree
    simp [slotsF] at hfree
  | nd :: rest, n, l2, n2, h, hn, hfree => by
    simp only [nodePassNodes] at h
    split at h
    case _ nd2 hacq =>
      split at h
      case _ => exact absurd h (by simp)
      case _ m =>
        by_cases hm : m = 0
        · rw [if_pos hm] at h
          subst hm
          obtain ⟨rfl, rfl⟩ := Prod.mk.inj (Except.ok.inj h)
          omega
        · rw [if_neg hm] at h
          split at h
          case _ => exact absurd h (by simp)
          case _ rest2 n3 hrec =>
            obtain ⟨rfl, rfl⟩ := Prod.mk.inj (Except.ok.inj h)
            have := (nodePassNodes_ok hrec).1
            omega
    case _ e hacq =>
      have hfull := node_acquire_error_full hacq
      rw [nodesSlots_cons, slotsF_append, hfull] at hfree
      by_cases hoe : oe = true
      · rw [if_pos hoe] at h
        exact absurd h (by simp)
      · rw [if_neg hoe] at h
        split at h
        case _ => exact absurd h (by simp)
        case _ rest2 n3 hrec =>
          obtain ⟨rfl, rfl⟩ := Prod.mk.inj (Except.ok.inj h)
          exact nodePassNodes_progress hrec hn (by omega)

theorem nodeWhile_ok {j : Nat} {oe : Bool} :
    ∀ (n : Nat) {nodes nodes2 : List Node},
      nodeWhile j oe n nodes = .ok nodes2 →
      SlotsRel (SlotStep j) (nodesSlots nodes) (nodesSlots nodes2) ∧
      slotsA j (nodesSlots nodes2) = slotsA j (nodesSlots nodes) + n ∧
      slotsF (nodesSlots nodes) = slotsF (nodesSlots nodes2) + n := by
  intro n
  induction n using Nat.strong_induction_on with
  | _ n ih =>
    intro nodes nodes2 h
    rw [nodeWhile.eq_def] at h
    by_cases hz : n = 0
    · rw [if_pos hz] at h
      obtain rfl := Except.ok.inj h
      subst hz
      exact ⟨SlotsRel.self (slotStep_refl j) _, by omega, by omega⟩
    · rw [if_neg hz] at h
      split at h
      case _ => exact absurd h (by simp)
      case _ nodes1 n1 hpass =>
        obtain ⟨hle, hrel1, hA1, hF1⟩ := nodePassNodes_ok hpass
        split at h
        case _ hlt =>
          obtain ⟨hrel2, hA2, hF2⟩ := ih n1 hlt h
          exact ⟨SlotsRel.comp (R := SlotStep j) (S := SlotStep j) (T := SlotStep j) (fun a b c hab hbc => slotStep_trans hab hbc) hrel1 hrel2,
            by omega, by omega⟩
        case _ => exact absurd h (by simp)

theorem nodeWhile_success {j : Nat} :
    ∀ (n : Nat) (nodes : List Node), n ≤ slotsF (nodesSlots nodes) →
      ∃ nodes2, nodeWhile j false n nodes = .ok nodes2 := by
  intro n
  induction n using Nat.strong_induction_on with
  | _ n ih =>
    intro nodes hfree
    by_cases hz : n = 0
    · subst hz
      exact ⟨nodes, by rw [nodeWhile.eq_def]; simp⟩
    · obtain ⟨nodes1, n1, hpass⟩ := nodePassNodes_false_total (j := j) nodes n (by omega)
      have hprog : n1 < n := nodePassNodes_progress hpass (by omega) (by omega)
      obtain ⟨hle, hrel, hA, hF⟩ := nodePassNodes_ok hpass
      obtain ⟨nodes2, hrec⟩ := ih n1 hprog nodes1 (by omega)
      refine ⟨nodes2, ?_⟩
      rw [nodeWhile.eq_def]
      simp only [if_neg hz, hpass]
      rw [dif_pos hprog]
      exact hrec

theorem nodePassNodes_abort {j : Nat} {nd : Node} {rest : List Node} {n : Nat}
    (hfull : slotsF (numasSlots nd.numas) = 0) (hn : 1 ≤ n) :
    nodePassNodes j true (nd :: rest) n = .error .noRoomOnNode := by
  have hacq : nd.acquire j = .error (.noFreeSlotOnNode nd.host) :=
    node_acquire_of_full hfull
  simp only [nodePassNodes, hacq]
  rfl

theorem nodeWhile_abort {j : Nat} {nd : Node} {rest : List Node} {n : Nat}
    (hfull : slotsF (numasSlots nd.numas) = 0) (hn : 1 ≤ n) :
    nodeWhile j true n (nd :: rest) = .error .noRoomOnNode := by
  rw [nodeWhile.eq_def]
  rw [if_neg (by omega : ¬ n = 0)]
  rw [nodePassNodes_abort hfull hn]

/-- C2 amended: the fixed-count walk for numa (resp. node) locality makes
repeated passes and, on success, stops after exactly `N` acquisitions for
the job (`N` more slots assigned to it, `N` fewer free).  But phase 2 runs
the walk with on_each = true, so any full container aborts the job at once:
whenever the first NUMA of the walk (resp. the first Node) has no free
slot, the walk fails with the on_each error even if other containers could
still yield acquisitions. -/
theorem c2_fixed_walk_stops_at_n_but_aborts_on_full_container
    (nodes nodes2 : List Node) (N j : Nat) :
    (numaWhile j true N nodes = .ok nodes2 →
      slotsA j (nodesSlots nodes2) = slotsA j (nodesSlots nodes) + N ∧
      slotsF (nodesSlots nodes) = slotsF (nodesSlots nodes2) + N) ∧
    (nodeWhile j true N nodes = .ok nodes2 →
      slotsA j (nodesSlots nodes2) = slotsA j (nodesSlots nodes) + N ∧
      slotsF (nodesSlots nodes) = slotsF (nodesSlots nodes2) + N) ∧
    (∀ nu restNu, nodes.flatMap Node.numas = nu :: restNu →
      slotsF nu.slots = 0 → 1 ≤ N →
      numaWhile j true N nodes = .error .noRoomOnNuma) ∧
    (∀ nd restNd, nodes = nd :: restNd →
      slotsF (numasSlots nd.numas) = 0 → 1 ≤ N →
      nodeWhile j true N nodes = .error .noRoomOnNode) := by
  refine ⟨?_, ?_, ?_, ?_⟩
  · intro h
    obtain ⟨_, hA, hF⟩ := numaWhile_ok N h
    exact ⟨hA, hF⟩
  · intro h
    obtain ⟨_, hA, hF⟩ := nodeWhile_ok N h
    exact ⟨hA, hF⟩
  · intro nu restNu hflat hfull hN
    exact numaWhile_abort hflat hfull hN
  · intro nd restNd hcons hfull hN
    subst hcons
    exact nodeWhile_abort hfull hN

/-- C2 counterexample: the claim as stated is FALSE on the code.  Inventory:
one host, NUMA 0 with one free slot, NUMA 1 with two free slots, so three
free slots in total; the fixed-count request "3numa" (which ProcMap::map
runs with on_each = true) fails with "No room on Numa" on its second pass,
at the now-full NUMA 0, even though NUMA 1 still yields an acquisition. -/
theorem c2_counterexample_full_numa_aborts :
    ProcMap.map_for_defined_size
      { nodes := [{ host := "h1", numas :=
          [{ id := 0, slots := [{ rank := 0, pu := [0], job := none }] },
           { id := 1, slots := [{ rank := 1, pu := [1], job := none },
                                { rank := 2, pu := [2], job := none }] }] }] }
      "numa" 3 0 true = .error .noRoomOnNuma ∧
    ProcMap.count_free_slots
      { nodes := [{ host := "h1", numas :=
          [{ id := 0, slots := [{ rank := 0, pu := [0], job := none }] },
           { id := 1, slots := [{ rank := 1, pu := [1], job := none },
                                { rank := 2, pu := [2], job := none }] }] }] } = 3 := by
  constructor
  · have h1 : numaPassNodes 0 true
        [{ host := "h1", numas :=
          [{ id := 0, slots := [{ rank := 0, pu := [0], job := none }] },
           { id := 1, slots := [{ rank := 1, pu := [1], job := none },
                                { rank := 2, pu := [2], job := none }] }] }] 3
        = .ok ([{ host := "h1", numas :=
          [{ id := 0, slots := [{ rank := 0, pu := [0], job := some 0 }] },
           { id := 1, slots := [{ rank := 1, pu := [1], job := some 0 },
                                { rank := 2, pu := [2], job := none }] }] }], 1) := by
      decide
    have h2 : numaPassNodes 0 true
        [{ host := "h1", numas :=
          [{ id := 0, slots := [{ rank := 0, pu := [0], job := some 0 }] },
           { id := 1, slots := [{ rank := 1, pu := [1], job := some 0 },
                                { rank := 2, pu := [2], job := none }] }] }] 1
        = .error .noRoomOnNuma := by decide
    have hw : numaWhile 0 true 3
        [{ host := "h1", numas :=
          [{ id := 0, slots := [{ rank := 0, pu := [0], job := none }] },
           { id := 1, slots := [{ rank := 1, pu := [1], job := none },
                                { rank := 2, pu := [2], job := none }] }] }]
        = .error .noRoomOnNuma := by
      rw [numaWhile.eq_def, h1]
      norm_num
      rw [numaWhile.eq_def, h2]
      norm_num
    rw [show ProcMap.map_for_defined_size
        { nodes := [{ host := "h1", numas :=
          [{ id := 0, slots := [{ rank := 0, pu := [0], job := none }] },
           { id := 1, slots := [{ rank := 1, pu := [1], job := none },
                                { rank := 2, pu := [2], job := none }] }] }] }
        "numa" 3 0 true
        = (match numaWhile 0 true 3
            [{ host := "h1", numas :=
              [{ id := 0, slots := [{ rank := 0, pu := [0], job := none }] },
               { id := 1, slots := [{ rank := 1, pu := [1], job := none },
                                    { rank := 2, pu := [2], job := none }] }] }] with
           | .error e => .error e
           | .ok nodes2 => .ok { nodes := nodes2 }) from rfl, hw]
  · decide

/-- C2 witness: the amended theorem at concrete inputs — a 2-request over
two one-slot NUMAs succeeds with exactly two acquisitions, and a walk whose
first NUMA (resp. first node) is full aborts with the on_each error. -/
theorem c2_witness :
    (slotsA 5 (nodesSlots
        [{ host := "h1", numas :=
          [{ id := 0, slots := [{ rank := 0, pu := [0], job := some 5 }] },
           { id := 1, slots := [{ rank := 1, pu := [1], job := some 5 }] }] }])
      = slotsA 5 (nodesSlots
        [{ host := "h1", numas :=
          [{ id := 0, slots := [{ rank := 0, pu := [0], job := none }] },
           { id := 1, slots := [{ rank := 1, pu := [1], job := none }] }] }]) + 2) ∧
    numaWhile 9 true 1
      [{ host := "h2", numas :=
        [{ id := 0, slots := [{ rank := 0, pu := [0], job := some 3 }] },
         { id := 1, slots := [{ rank := 1, pu := [1], job := none }] }] }]
      = .error .noRoomOnNuma ∧
    nodeWhile 9 true 1
      [{ host := "h2", numas := [{ id := 0, slots := [{ rank := 0, pu := [0], job := some 3 }] }] },
       { host := "h3", numas := [{ id := 0, slots := [{ rank := 1, pu := [1], job := none }] }] }]
      = .error .noRoomOnNode := by
  refine ⟨?_, ?_, ?_⟩
  · have hpass : numaPassNodes 5 true
        [{ host := "h1", numas :=
          [{ id := 0, slots := [{ rank := 0, pu := [0], job := none }] },
           { id := 1, slots := [{ rank := 1, pu := [1], job := none }] }] }] 2
        = .ok ([{ host := "h1", numas :=
          [{ id := 0, slots := [{ rank := 0, pu := [0], job := some 5 }] },
           { id := 1, slots := [{ rank := 1, pu := [1], job := some 5 }] }] }], 0) := by
      decide
    have hw : numaWhile 5 true 2
        [{ host := "h1", numas :=
          [{ id := 0, slots := [{ rank := 0, pu := [0], job := none }] },
           { id := 1, slots := [{ rank := 1, pu := [1], job := none }] }] }]
        = .ok [{ host := "h1", numas :=
          [{ id := 0, slots := [{ rank := 0, pu := [0], job := some 5 }] },
           { id := 1, slots := [{ rank := 1, pu := [1], job := some 5 }] }] }] := by
      rw [numaWhile.eq_def, hpass]
      norm_num
      rw [numaWhile.eq_def]
      norm_num
    exact ((c2_fixed_walk_stops_at_n_but_aborts_on_full_container _ _ 2 5).1 hw).1
  · exact (c2_fixed_walk_stops_at_n_but_aborts_on_full_container
      [{ host := "h2", numas :=
        [{ id := 0, slots := [{ rank := 0, pu := [0], job := some 3 }] },
         { id := 1, slots := [{ rank := 1, pu := [1], job := none }] }] }] [] 1 9).2.2.1
      { id := 0, slots := [{ rank := 0, pu := [0], job := some 3 }] }
      [{ id := 1, slots := [{ rank := 1, pu := [1], job := none }] }]
      (by decide) (by decide) (by decide)
  · exact (c2_fixed_walk_stops_at_n_but_aborts_on_full_container
      [{ host := "h2", numas := [{ id := 0, slots := [{ rank := 0, pu := [0], job := some 3 }] }] },
       { host := "h3", numas := [{ id := 0, slots := [{ rank := 1, pu := [1], job := none }] }] }]
      [] 1 9).2.2.2
      { host := "h2", numas := [{ id := 0, slots := [{ rank := 0, pu := [0], job := some 3 }] }] }
      [{ host := "h3", numas := [{ id := 0, slots := [{ rank := 1, pu := [1], job := none }] }] }]
      rfl (by decide) (by decide)

/-! ## map_for_defined_size lemmas (shared by C6 and C9) -/

theorem slotWalkSlots_zero_ok {j : Nat} :
    ∀ {l l2 : List Slot} {n2 : Nat} {br : Bool},
      slotWalkSlots j l 0 = .ok (l2, n2, br) → l2 = l ∧ n2 = 0
  | [], l2, n2, br, h => by
    obtain ⟨rfl, rfl, rfl⟩ := Prod.mk.inj (Except.ok.inj h) |>.imp id Prod.mk.inj
    exact ⟨rfl, rfl⟩
  | s :: rest, l2, n2, br, h => by
    simp only [slotWalkSlots] at h
    by_cases hf : s.is_free
    · rw [if_pos hf] at h
      exact absurd h (by simp)
    · rw [if_neg hf] at h
      rw [if_pos trivial] at h
      obtain ⟨h1, h2⟩ := Prod.mk.inj (Except.ok.inj h)
      obtain ⟨h3, h4⟩ := Prod.mk.inj h2
      exact ⟨h1.symm, h3.symm⟩

theorem slotWalkNumas_zero_ok {j : Nat} :
    ∀ {l l2 : List Numa} {n2 : Nat} {br : Bool},
      slotWalkNumas j l 0 = .ok (l2, n2, br) → l2 = l ∧ n2 = 0
  | [], l2, n2, br, h => by
    obtain ⟨h1, h2⟩ := Prod.mk.inj (Except.ok.inj h)
    exact ⟨h1.symm, (Prod.mk.inj h2).1.symm⟩
  | nu :: rest, l2, n2, br, h => by
    simp only [slotWalkNumas] at h
    split at h
    case _ => exact absurd h (by simp)
    case _ slots2 n3 br3 hslots =>
      obtain ⟨rfl, rfl⟩ := slotWalkSlots_zero_ok hslots
      by_cases hbr : br3 = true
      · rw [if_pos hbr] at h
        obtain ⟨h1, h2⟩ := Prod.mk.inj (Except.ok.inj h)
        exact ⟨h1.symm, (Prod.mk.inj h2).1.symm⟩
      · rw [if_neg hbr] at h
        split at h
        case _ => exact absurd h (by simp)
        case _ rest2 n4 br4 hrec =>
          obtain ⟨rfl, rfl⟩ := slotWalkNumas_zero_ok hrec
          obtain ⟨h1, h2⟩ := Prod.mk.inj (Except.ok.inj h)
          exact ⟨h1.symm, (Prod.mk.inj h2).1.symm⟩

theorem slotWalkNodes_zero_ok {j : Nat} :
    ∀ {l l2 : List Node} {n2 : Nat} {br : Bool},
      slotWalkNodes j l 0 = .ok (l2, n2, br) → l2 = l ∧ n2 = 0
  | [], l2, n2, br, h => by
    obtain ⟨h1, h2⟩ := Prod.mk.inj (Except.ok.inj h)
    exact ⟨h1.symm, (Prod.mk.inj h2).1.symm⟩
  | nd :: rest, l2, n2, br, h => by
    simp only [slotWalkNodes] at h
    split at h
    case _ => exact absurd h (by simp)
    case _ numas2 n3 br3 hnumas =>
      obtain ⟨rfl, rfl⟩ := slotWalkNumas_zero_ok hnumas
      by_cases hbr : br3 = true
      · rw [if_pos hbr] at h
        obtain ⟨h1, h2⟩ := Prod.mk.inj (Except.ok.inj h)
        exact ⟨h1.symm, (Prod.mk.inj h2).1.symm⟩
      · rw [if_neg hbr] at h
        split at h
        case _ => exact absurd h (by simp)
        case _ rest2 n4 br4 hrec =>
          obtain ⟨rfl, rfl⟩ := slotWalkNodes_zero_ok hrec
          obtain ⟨h1, h2⟩ := Prod.mk.inj (Except.ok.inj h)
          exact ⟨h1.symm, (Prod.mk.inj h2).1.symm⟩

theorem slotWalkSlots_full_zero {j : Nat} :
    ∀ {l : List Slot}, slotsF l = 0 → ∃ br, slotWalkSlots j l 0 = .ok (l, 0, br)
  | [], _ => ⟨false, rfl⟩
  | s :: rest, h => by
    have hj : ¬ s.job = none := by
      intro hc
      rw [slotsF_cons_of_none hc] at h
      omega
    have hf : ¬ s.is_free = true := by
      simpa [Slot.is_free, Option.isNone_iff_eq_none] using hj
    exact ⟨true, by simp only [slotWalkSlots, if_neg hf]; rfl⟩

theorem slotWalkNumas_full_zero {j : Nat} :
    ∀ {l : List Numa}, slotsF (numasSlots l) = 0 →
      ∃ br, slotWalkNumas j l 0 = .ok (l, 0, br)
  | [], _ => ⟨false, rfl⟩
  | nu :: rest, h => by
    rw [numasSlots_cons, slotsF_append] at h
    obtain ⟨br1, h1⟩ := slotWalkSlots_full_zero (j := j) (l := nu.slots) (by omega)
    cases br1 with
    | true =>
      refine ⟨true, ?_⟩
      simp only [slotWalkNumas, h1]
      rfl
    | false =>
      obtain ⟨br2, h2⟩ := slotWalkNumas_full_zero (j := j) (l := rest) (by omega)
      refine ⟨br2, ?_⟩
      simp only [slotWalkNumas, h1, h2]
      rfl

theorem slotWalkNodes_full_zero {j : Nat} :
    ∀ {l : List Node}, slotsF (nodesSlots l) = 0 →
      ∃ br, slotWalkNodes j l 0 = .ok (l, 0, br)
  | [], _ => ⟨false, rfl⟩
  | nd :: rest, h => by
    rw [nodesSlots_cons, slotsF_append] at h
    obtain ⟨br1, h1⟩ := slotWalkNumas_full_zero (j := j) (l := nd.numas) (by omega)
    cases br1 with
    | true =>
      refine ⟨true, ?_⟩
      simp only [slotWalkNodes, h1]
      rfl
    | false =>
      obtain ⟨br2, h2⟩ := slotWalkNodes_full_zero (j := j) (l := rest) (by omega)
      refine ⟨br2, ?_⟩
      simp only [slotWalkNodes, h1, h2]
      rfl

theorem mfds_ok_props {pm pm2 : ProcMap} {level : String} {size j : Nat} {oe : Bool}
    (h : pm.map_for_defined_size level size j oe = .ok pm2) :
    SlotsRel (SlotStep j) pm.each_slot pm2.each_slot ∧
    slotsA j pm2.each_slot = slotsA j pm.each_slot + size ∧
    slotsF pm.each_slot = slotsF pm2.each_slot + size := by
  simp only [ProcMap.map_for_defined_size] at h
  split at h
  · split at h
    case _ => exact absurd h (by simp)
    case _ nodes2 hw =>
      obtain rfl := Except.ok.inj h
      exact numaWhile_ok size hw
  · split at h
    case _ => exact absurd h (by simp)
    case _ nodes2 hw =>
      obtain rfl := Except.ok.inj h
      exact nodeWhile_ok size hw
  · split at h
    case _ => exact absurd h (by simp)
    case _ nodes2 n2 br hw =>
      by_cases hz : n2 ≠ 0
      · rw [if_pos hz] at h
        exact absurd h (by simp)
      · rw [if_neg hz] at h
        obtain rfl := Except.ok.inj h
        push_neg at hz
        subst hz
        rcases Nat.eq_zero_or_pos size with hs | hs
        · subst hs
          obtain ⟨rfl, -⟩ := slotWalkNodes_zero_ok hw
          refine ⟨SlotsRel.self (slotStep_refl j) _, ?_, ?_⟩
          · show slotsA j (nodesSlots pm.nodes) = slotsA j (nodesSlots pm.nodes) + 0
            omega
          · show slotsF (nodesSlots pm.nodes) = slotsF (nodesSlots pm.nodes) + 0
            omega
        · obtain ⟨l2, hok, hslots⟩ := slotWalkNodes_spec j pm.nodes size hs
          rw [hok] at hw
          obtain ⟨h1, h2⟩ := Prod.mk.inj (Except.ok.inj hw)
          obtain ⟨h3, h4⟩ := Prod.mk.inj h2
          have hmin : min size (slotsF (nodesSlots pm.nodes)) = size := by omega
          subst h1
          obtain ⟨hA, hF⟩ := specAFF_counts j (nodesSlots pm.nodes) size
          rw [hmin] at hA hF
          refine ⟨?_, ?_, ?_⟩
          · show SlotsRel (SlotStep j) (nodesSlots pm.nodes) (nodesSlots l2)
            rw [hslots]
            exact specAFF_slotsRel j (nodesSlots pm.nodes) size
          · show slotsA j (nodesSlots l2) = slotsA j (nodesSlots pm.nodes) + size
            rw [hslots, hA]
          · show slotsF (nodesSlots pm.nodes) = slotsF (nodesSlots l2) + size
            rw [hslots]
            omega
  · exact absurd h (by simp)

theorem mfds_false_success {pm : ProcMap} {level : String} {size j : Nat}
    (hlev : level = "numa" ∨ level = "node" ∨ level = "slot")
    (hle : size ≤ slotsF pm.each_slot)
    (hz : size = 0 → slotsF pm.each_slot = 0) :
    ∃ pm2, pm.map_for_defined_size level size j false = .ok pm2 := by
  rcases hlev with rfl | rfl | rfl
  · obtain ⟨nodes2, hw⟩ := numaWhile_success (j := j) size pm.nodes hle
    refine ⟨{ nodes := nodes2 }, ?_⟩
    rw [show pm.map_for_defined_size "numa" size j false
        = (match numaWhile j false size pm.nodes with
           | .error e => .error e
           | .ok nodes2 => .ok { nodes := nodes2 }) from rfl, hw]
  · obtain ⟨nodes2, hw⟩ := nodeWhile_success (j := j) size pm.nodes hle
    refine ⟨{ nodes := nodes2 }, ?_⟩
    rw [show pm.map_for_defined_size "node" size j false
        = (match nodeWhile j false size pm.nodes with
           | .error e => .error e
           | .ok nodes2 => .ok { nodes := nodes2 }) from rfl, hw]
  · have hred : pm.map_for_defined_size "slot" size j false
        = (match slotWalkNodes j pm.nodes size with
           | .error e => .error e
           | .ok (nodes2, n2, _) =>
             if n2 ≠ 0 then .error (.notEnoughSlots size)
             else .ok { nodes := nodes2 }) := rfl
    rcases Nat.eq_zero_or_pos size with hs | hs
    · subst hs
      obtain ⟨br, hok⟩ := slotWalkNodes_full_zero (j := j) (l := pm.nodes) (hz rfl)
      refine ⟨{ nodes := pm.nodes }, ?_⟩
      rw [hred, hok]
      simp
    · obtain ⟨l2, hok, hslots⟩ := slotWalkNodes_spec j pm.nodes size hs
      refine ⟨{ nodes := l2 }, ?_⟩
      rw [hred, hok]
      have hle2 : size ≤ slotsF (nodesSlots pm.nodes) := hle
      have hmin : size - min size (slotsF (nodesSlots pm.nodes)) = 0 := by omega
      rw [hmin]
      simp

/-! ## Phase-3 allocation sizes (claim C6) -/

/-- Number of "A" entries in an enumerated job sublist. -/
def countA (entries : List (Nat × JobEntry)) : Nat :=
  (entries.filter (fun p => p.2.order == "A")).length

/-- The (job id, size) pairs the phase-3 loop hands to the "A" jobs: the
first "A" entry (is_first still true) gets quantum + rest, every later one
exactly quantum. -/
def aSizes (quantum rest : Nat) : List (Nat × JobEntry) → Bool → List (Nat × Nat)
  | [], _ => []
  | (i, jb) :: restJ, isFirst =>
    if jb.order = "A" then
      (i, if isFirst then quantum + rest else quantum) :: aSizes quantum rest restJ false
    else aSizes quantum rest restJ isFirst

theorem countA_nil : countA [] = 0 := rfl

theorem countA_cons_A {i : Nat} {jb : JobEntry} (h : jb.order = "A")
    (rest : List (Nat × JobEntry)) : countA ((i, jb) :: rest) = countA rest + 1 := by
  simp [countA, List.filter_cons, h]

theorem countA_cons_nonA {i : Nat} {jb : JobEntry} (h : ¬ jb.order = "A")
    (rest : List (Nat × JobEntry)) : countA ((i, jb) :: rest) = countA rest := by
  simp [countA, List.filter_cons, h]

theorem countA_enumJobs : ∀ (k : Nat) (jobs : List JobEntry),
    countA (enumJobs k jobs) = allJobsCount jobs
  | _, [] => rfl
  | k, jb :: rest => by
    by_cases h : jb.order = "A"
    · rw [enumJobs, countA_cons_A h, countA_enumJobs (k + 1) rest]
      simp [allJobsCount, List.filter_cons, h]
    · rw [enumJobs, countA_cons_nonA h, countA_enumJobs (k + 1) rest]
      simp [allJobsCount, List.filter_cons, h]

theorem aSizes_fst_sub {q r : Nat} :
    ∀ {entries : List (Nat × JobEntry)} {isFirst : Bool} {p : Nat × Nat},
      p ∈ aSizes q r entries isFirst → p.1 ∈ entries.map Prod.fst
  | [], _, p, h => by cases h
  | (i, jb) :: restJ, isFirst, p, h => by
    simp only [aSizes] at h
    by_cases hA : jb.order = "A"
    · rw [if_pos hA] at h
      rcases List.mem_cons.mp h with rfl | h2
      · simp
      · simp only [List.map_cons, List.mem_cons]
        exact Or.inr (aSizes_fst_sub h2)
    · rw [if_neg hA] at h
      simp only [List.map_cons, List.mem_cons]
      exact Or.inr (aSizes_fst_sub h)

theorem aSizes_snd_false {q r : Nat} :
    ∀ (entries : List (Nat × JobEntry)),
      (aSizes q r entries false).map Prod.snd = List.replicate (countA entries) q
  | [] => rfl
  | (i, jb) :: restJ => by
    by_cases hA : jb.order = "A"
    · simp only [aSizes, if_pos hA, countA_cons_A hA, List.map_cons,
        aSizes_snd_false restJ]
      rfl
    · simp only [aSizes, if_neg hA, countA_cons_nonA hA, aSizes_snd_false restJ]

theorem aSizes_snd_true {q r : Nat} :
    ∀ (entries : List (Nat × JobEntry)), 1 ≤ countA entries →
      (aSizes q r entries true).map Prod.snd
        = (q + r) :: List.replicate (countA entries - 1) q
  | [], h => by simp [countA_nil] at h
  | (i, jb) :: restJ, h => by
    by_cases hA : jb.order = "A"
    · simp only [aSizes, if_pos hA, countA_cons_A hA, List.map_cons,
        aSizes_snd_false restJ]
      simp
    · rw [countA_cons_nonA hA] at h
      simp only [aSizes, if_neg hA, countA_cons_nonA hA]
      exact aSizes_snd_true restJ h

theorem slotEvol_mono {P Q : Nat → Prop} (hPQ : ∀ a, P a → Q a) {s s2 : Slot}
    (h : SlotEvol P s s2) : SlotEvol Q s s2 := by
  rcases h with rfl | ⟨hf, jj, hjj, rfl⟩
  · exact Or.inl rfl
  · exact Or.inr ⟨hf, jj, hPQ jj hjj, rfl⟩

theorem aSizes_tail_sum_zero {q r : Nat} (hq : q = 0) (entries : List (Nat × JobEntry)) :
    ((aSizes q r entries false).map Prod.snd).sum = 0 := by
  rw [aSizes_snd_false]
  simp [hq]

/-- The phase-3 loop, run from any state whose free-slot count equals the
sum of the remaining `aSizes` budget, succeeds, exhausts the free slots,
and hands each "A" entry exactly its `aSizes` share. -/
theorem allPhase_spec {q r : Nat} :
    ∀ (entries : List (Nat × JobEntry)) (isFirst : Bool) (pm : ProcMap),
      (∀ p ∈ entries, p.2.order = "A" →
        p.2.loc_or_slot = "numa" ∨ p.2.loc_or_slot = "node" ∨ p.2.loc_or_slot = "slot") →
      List.Pairwise (fun a b => a ≠ b) (entries.map Prod.fst) →
      slotsF pm.each_slot = ((aSizes q r entries isFirst).map Prod.snd).sum →
      ∃ pm2, allPhase q r entries isFirst pm = .ok pm2 ∧
        slotsF pm2.each_slot = 0 ∧
        SlotsRel (SlotEvol (fun a => a ∈ entries.map Prod.fst))
          pm.each_slot pm2.each_slot ∧
        ∀ p ∈ aSizes q r entries isFirst,
          slotsA p.1 pm2.each_slot = slotsA p.1 pm.each_slot + p.2
  | [], isFirst, pm, hloc, hpw, hfree => by
    refine ⟨pm, rfl, ?_, SlotsRel.self (slotEvol_refl _) _, ?_⟩
    · simpa [aSizes] using hfree
    · intro p hp
      simp [aSizes] at hp
  | (i, jb) :: restJ, isFirst, pm, hloc, hpw, hfree => by
    have hsub : ∀ x, x ∈ restJ.map Prod.fst → x ∈ ((i, jb) :: restJ).map Prod.fst := by
      intro x hx
      simp only [List.map_cons, List.mem_cons]
      exact Or.inr hx
    have hpwtail : List.Pairwise (fun a b => a ≠ b) (restJ.map Prod.fst) :=
      (List.pairwise_cons.mp (by simpa using hpw)).2
    have hinotin : ∀ b ∈ restJ.map Prod.fst, i ≠ b :=
      (List.pairwise_cons.mp (by simpa using hpw)).1
    by_cases hA : jb.order = "A"
    · have hsum : slotsF pm.each_slot
          = (if isFirst then q + r else q)
            + ((aSizes q r restJ false).map Prod.snd).sum := by
        rw [hfree]
        simp [aSizes, if_pos hA]
      have htle : (if isFirst then q + r else q) ≤ slotsF pm.each_slot := by
        rw [hsum]; omega
      have htz : (if isFirst then q + r else q) = 0 → slotsF pm.each_slot = 0 := by
        intro h0
        have hq : q = 0 := by
          cases isFirst with
          | true => simp at h0; omega
          | false => simpa using h0
        rw [hsum, h0, aSizes_tail_sum_zero hq]
      obtain ⟨pm1, hmfds⟩ := mfds_false_success
        (hloc (i, jb) (by simp) hA) htle htz
      obtain ⟨hrel1, hA1, hF1⟩ := mfds_ok_props hmfds
      have hfree1 : slotsF pm1.each_slot = ((aSizes q r restJ false).map Prod.snd).sum := by
        rw [hsum] at hF1
        omega
      obtain ⟨pm2, hok2, hfree2, hrel2, hsizes2⟩ :=
        allPhase_spec restJ false pm1
          (fun p hp => hloc p (List.mem_cons_of_mem _ hp))
          hpwtail hfree1
      refine ⟨pm2, ?_, hfree2, ?_, ?_⟩
      · simp only [allPhase]
        rw [if_pos hA, hmfds]
        exact hok2
      · exact SlotsRel.comp
          (R := SlotEvol (fun a => a ∈ ((i, jb) :: restJ).map Prod.fst))
          (S := SlotEvol (fun a => a ∈ restJ.map Prod.fst))
          (T := SlotEvol (fun a => a ∈ ((i, jb) :: restJ).map Prod.fst))
          (fun a b c hab hbc => slotEvol_trans hab (slotEvol_mono hsub hbc))
          (SlotsRel.imp (fun a b hab => slotStep_evol (by simp) hab) hrel1) hrel2
      · intro p hp
        simp only [aSizes, if_pos hA] at hp
        rcases List.mem_cons.mp hp with rfl | hp2
        · have hstable : slotsA i pm2.each_slot = slotsA i pm1.each_slot :=
            slotsRel_evol_other
              (fun a ha => fun hc => hinotin a ha (by rw [hc])) hrel2
          rw [hstable, hA1]
        · have hmem := aSizes_fst_sub hp2
          have hne : p.1 ≠ i := fun hc => hinotin p.1 hmem (by rw [hc])
          have hstable : slotsA p.1 pm1.each_slot = slotsA p.1 pm.each_slot :=
            slotsRel_step_other hne hrel1
          rw [hsizes2 p hp2, hstable]
    · obtain ⟨pm2, hok2, hfree2, hrel2, hsizes2⟩ :=
        allPhase_spec (q := q) (r := r) restJ isFirst pm
          (fun p hp => hloc p (List.mem_cons_of_mem _ hp))
          hpwtail
          (by rw [hfree]; simp [aSizes, if_neg hA])
      refine ⟨pm2, ?_, hfree2, ?_, ?_⟩
      · simp only [allPhase]
        rw [if_neg hA]
        exact hok2
      · exact SlotsRel.imp (fun a b hab => slotEvol_mono hsub hab) hrel2
      · intro p hp
        simp only [aSizes, if_neg hA] at hp
        exact hsizes2 p hp

theorem enumJobs_mem_fst : ∀ (k : Nat) (jobs : List JobEntry) (p : Nat × JobEntry),
    p ∈ enumJobs k jobs → k ≤ p.1 ∧ p.1 < k + jobs.length
  | _, [], _, h => by cases h
  | k, jb :: rest, p, h => by
    rcases List.mem_cons.mp h with rfl | h2
    · simp only [List.length_cons]
      omega
    · have := enumJobs_mem_fst (k + 1) rest p h2
      simp only [List.length_cons]
      omega

theorem enumJobs_mem_snd : ∀ (k : Nat) (jobs : List JobEntry) (p : Nat × JobEntry),
    p ∈ enumJobs k jobs → p.2 ∈ jobs
  | _, [], _, h => by cases h
  | k, jb :: rest, p, h => by
    rcases List.mem_cons.mp h with rfl | h2
    · simp
    · exact List.mem_cons_of_mem _ (enumJobs_mem_snd (k + 1) rest p h2)

theorem enumJobs_fst_pairwise : ∀ (k : Nat) (jobs : List JobEntry),
    List.Pairwise (fun a b => a ≠ b) ((enumJobs k jobs).map Prod.fst)
  | _, [] => .nil
  | k, jb :: rest => by
    simp only [enumJobs, List.map_cons]
    refine List.Pairwise.cons ?_ (enumJobs_fst_pairwise (k + 1) rest)
    intro b hb
    obtain ⟨p, hp, rfl⟩ := List.mem_map.mp hb
    have := enumJobs_mem_fst (k + 1) rest p hp
    omega

/-- C6: with `K ≥ 1` "A" jobs and `R` free slots at entry to phase 3, the
loop succeeds; the first "A" job in JobList order receives
`quantum + rest` slots, every subsequent one exactly `quantum`
(`quantum = R / K`, `rest = R - K * quantum`); consequently the assigned
shares sum to `R` (no slot stays free), the first share is ≥ every other,
and the difference is `< K`. -/
theorem c6_phase3_first_gets_quantum_plus_rest
    (pm : ProcMap) (jobs : List JobEntry) (q r : Nat)
    (hK : 1 ≤ allJobsCount jobs)
    (hloc : ∀ jb ∈ jobs, jb.order = "A" →
      jb.loc_or_slot = "numa" ∨ jb.loc_or_slot = "node" ∨ jb.loc_or_slot = "slot")
    (hq : q = pm.count_free_slots / allJobsCount jobs)
    (hr : r = pm.count_free_slots - allJobsCount jobs * q) :
    ∃ pm2, pm.phase3 jobs = .ok pm2 ∧
      pm2.count_free_slots = 0 ∧
      (aSizes q r (enumJobs 0 jobs) true).map Prod.snd
        = (q + r) :: List.replicate (allJobsCount jobs - 1) q ∧
      (∀ p ∈ aSizes q r (enumJobs 0 jobs) true,
        slotsA p.1 pm2.each_slot = slotsA p.1 pm.each_slot + p.2) ∧
      (q + r) + (allJobsCount jobs - 1) * q = pm.count_free_slots ∧
      q ≤ q + r ∧
      (q + r) - q < allJobsCount jobs := by
  cases hKc : allJobsCount jobs with
  | zero => omega
  | succ k =>
    have hq2 : q = pm.count_free_slots / (k + 1) := by rw [hq, hKc]
    have hr2 : r = pm.count_free_slots - (k + 1) * q := by rw [hr, hKc]
    have hmul : (k + 1) * q ≤ pm.count_free_slots := by
      rw [hq2, Nat.mul_comm]
      exact Nat.div_mul_le_self pm.count_free_slots (k + 1)
    have hmod : (k + 1) * q + pm.count_free_slots % (k + 1) = pm.count_free_slots := by
      rw [hq2]
      exact Nat.div_add_mod pm.count_free_slots (k + 1)
    have hrlt : r < k + 1 := by
      have h2 := Nat.mod_lt pm.count_free_slots (y := k + 1) (by omega)
      omega
    have hexp : (k + 1) * q = k * q + q := by ring
    have hsizes_snd : (aSizes q r (enumJobs 0 jobs) true).map Prod.snd
        = (q + r) :: List.replicate k q := by
      rw [aSizes_snd_true _ (by rw [countA_enumJobs, hKc]; omega)]
      rw [countA_enumJobs, hKc]
      simp
    have hcf : pm.count_free_slots = slotsF pm.each_slot := rfl
    have hbudget : slotsF pm.each_slot
        = ((aSizes q r (enumJobs 0 jobs) true).map Prod.snd).sum := by
      rw [hsizes_snd]
      simp only [List.sum_cons, List.sum_replicate, smul_eq_mul]
      omega
    obtain ⟨pm2, hok, hfree2, hrel, hsz⟩ :=
      allPhase_spec (q := q) (r := r) (enumJobs 0 jobs) true pm
        (fun p hp => hloc p.2 (enumJobs_mem_snd 0 jobs p hp))
        (enumJobs_fst_pairwise 0 jobs) hbudget
    refine ⟨pm2, ?_, hfree2, ?_, hsz, ?_, by omega, by omega⟩
    · simp only [ProcMap.phase3, hKc]
      rw [← hq2, ← hr2]
      exact hok
    · simp only [Nat.add_sub_cancel]
      exact hsizes_snd
    · simp only [Nat.add_sub_cancel]
      omega

/-- C6 witness: two "A" jobs over three free slots — quantum 1, rest 1; the
first job receives 2 slots, the second 1, and no slot stays free. -/
theorem c6_witness :
    ∃ pm2, ProcMap.phase3
        { nodes := [{ host := "h1", numas := [{ id := 0, slots :=
            [{ rank := 0, pu := [0], job := none },
             { rank := 1, pu := [1], job := none },
             { rank := 2, pu := [2], job := none }] }] }] }
        [{ map := "A", order := "A", loc := none, command := ["w"] },
         { map := "A", order := "A", loc := none, command := ["v"] }]
        = .ok pm2 ∧
      pm2.count_free_slots = 0 ∧
      slotsA 0 pm2.each_slot = 2 ∧ slotsA 1 pm2.each_slot = 1 := by
  obtain ⟨pm2, h1, h2, h3, h4, h5, h6, h7⟩ :=
    c6_phase3_first_gets_quantum_plus_rest
      { nodes := [{ host := "h1", numas := [{ id := 0, slots :=
          [{ rank := 0, pu := [0], job := none },
           { rank := 1, pu := [1], job := none },
           { rank := 2, pu := [2], job := none }] }] }] }
      [{ map := "A", order := "A", loc := none, command := ["w"] },
       { map := "A", order := "A", loc := none, command := ["v"] }]
      1 1 (by decide) (by decide) (by decide) (by decide)
  refine ⟨pm2, h1, h2, ?_, ?_⟩
  · have := h4 (0, 2) (by decide)
    simpa using this
  · have := h4 (1, 1) (by decide)
    simpa using this

/-! ## Phase evolution lemmas (claim C9) -/

theorem slot_acquire_ok {j : Nat} {s s2 : Slot} (h : s.acquire j = .ok s2) :
    s.job = none ∧ s2 = { s with job := some j } := by
  simp only [Slot.acquire] at h
  by_cases hs : s.job.isSome
  · rw [if_pos hs] at h
    exact absurd h (by simp)
  · rw [if_neg hs] at h
    exact ⟨Option.not_isSome_iff_eq_none.mp hs, (Except.ok.inj h).symm⟩

theorem acquireEachSlotInList_rel {j : Nat} :
    ∀ {l l2 : List Slot}, acquireEachSlotInList j l = .ok l2 → SlotsRel (SlotStep j) l l2
  | [], l2, h => by
    obtain rfl := Except.ok.inj h
    exact .nil
  | s :: rest, l2, h => by
    simp only [acquireEachSlotInList] at h
    split at h
    case _ => exact absurd h (by simp)
    case _ s2 hacq =>
      split at h
      case _ => exact absurd h (by simp)
      case _ rest2 hrec =>
        obtain rfl := Except.ok.inj h
        obtain ⟨hfree, rfl⟩ := slot_acquire_ok hacq
        exact .cons (Or.inr ⟨hfree, rfl⟩) (acquireEachSlotInList_rel hrec)

theorem acquireEachSlotNumas_rel {j : Nat} :
    ∀ {l l2 : List Numa}, acquireEachSlotNumas j l = .ok l2 →
      SlotsRel (SlotStep j) (numasSlots l) (numasSlots l2)
  | [], l2, h => by
    obtain rfl := Except.ok.inj h
    rw [numasSlots_nil]
    exact .nil
  | nu :: rest, l2, h => by
    simp only [acquireEachSlotNumas] at h
    split at h
    case _ => exact absurd h (by simp)
    case _ slots2 hslots =>
      split at h
      case _ => exact absurd h (by simp)
      case _ rest2 hrec =>
        obtain rfl := Except.ok.inj h
        rw [numasSlots_cons, numasSlots_cons]
        exact SlotsRel.append (acquireEachSlotInList_rel hslots)
          (acquireEachSlotNumas_rel hrec)

theorem acquireEachSlotNodes_rel {j : Nat} :
    ∀ {l l2 : List Node}, acquireEachSlotNodes j l = .ok l2 →
      SlotsRel (SlotStep j) (nodesSlots l) (nodesSlots l2)
  | [], l2, h => by
    obtain rfl := Except.ok.inj h
    rw [nodesSlots_nil]
    exact .nil
  | nd :: rest, l2, h => by
    simp only [acquireEachSlotNodes] at h
    split at h
    case _ => exact absurd h (by simp)
    case _ numas2 hnumas =>
      split at h
      case _ => exact absurd h (by simp)
      case _ rest2 hrec =>
        obtain rfl := Except.ok.inj h
        rw [nodesSlots_cons, nodesSlots_cons]
        exact SlotsRel.append (acquireEachSlotNumas_rel hnumas)
          (acquireEachSlotNodes_rel hrec)

theorem acquireEachNumaInList_rel {j : Nat} :
    ∀ {l l2 : List Numa}, acquireEachNumaInList j l = .ok l2 →
      SlotsRel (SlotStep j) (numasSlots l) (numasSlots l2)
  | [], l2, h => by
    obtain rfl := Except.ok.inj h
    rw [numasSlots_nil]
    exact .nil
  | nu :: rest, l2, h => by
    simp only [acquireEachNumaInList] at h
    split at h
    case _ => exact absurd h (by simp)
    case _ nu2 hacq =>
      split at h
      case _ => exact absurd h (by simp)
      case _ rest2 hrec =>
        obtain rfl := Except.ok.inj h
        rw [numasSlots_cons, numasSlots_cons]
        exact SlotsRel.append (numa_acquire_ok_props hacq).1
          (acquireEachNumaInList_rel hrec)

theorem acquireEachNumaNodes_rel {j : Nat} :
    ∀ {l l2 : List Node}, acquireEachNumaNodes j l = .ok l2 →
      SlotsRel (SlotStep j) (nodesSlots l) (nodesSlots l2)
  | [], l2, h => by
    obtain rfl := Except.ok.inj h
    rw [nodesSlots_nil]
    exact .nil
  | nd :: rest, l2, h => by
    simp only [acquireEachNumaNodes] at h
    split at h
    case _ => exact absurd h (by simp)
    case _ numas2 hnumas =>
      split at h
      case _ => exact absurd h (by simp)
      case _ rest2 hrec =>
        obtain rfl := Except.ok.inj h
        rw [nodesSlots_cons, nodesSlots_cons]
        exact SlotsRel.append (acquireEachNumaInList_rel hnumas)
          (acquireEachNumaNodes_rel hrec)

theorem acquireEachNodeList_rel {j : Nat} :
    ∀ {l l2 : List Node}, acquireEachNodeList j l = .ok l2 →
      SlotsRel (SlotStep j) (nodesSlots l) (nodesSlots l2)
  | [], l2, h => by
    obtain rfl := Except.ok.inj h
    rw [nodesSlots_nil]
    exact .nil
  | nd :: rest, l2, h => by
    simp only [acquireEachNodeList] at h
    split at h
    case _ => exact absurd h (by simp)
    case _ nd2 hacq =>
      split at h
      case _ => exact absurd h (by simp)
      case _ rest2 hrec =>
        obtain rfl := Except.ok.inj h
        rw [nodesSlots_cons, nodesSlots_cons]
        exact SlotsRel.append (node_acquire_ok_props hacq).1
          (acquireEachNodeList_rel hrec)

theorem evol_comp_helper {P : Nat → Prop} {i : Nat} (hPi : P i) :
    ∀ {a b c : List Slot}, SlotsRel (SlotStep i) a b → SlotsRel (SlotEvol P) b c →
      SlotsRel (SlotEvol P) a c :=
  fun h1 h2 =>
    SlotsRel.comp (R := SlotEvol P) (S := SlotEvol P) (T := SlotEvol P)
      (fun _ _ _ hab hbc => slotEvol_trans hab hbc)
      (SlotsRel.imp (fun _ _ hab => slotStep_evol hPi hab) h1) h2

theorem eachPhase_rel {P : Nat → Prop} :
    ∀ {entries : List (Nat × JobEntry)} {pm pm2 : ProcMap},
      eachPhase entries pm = .ok pm2 → (∀ p ∈ entries, P p.1) →
      SlotsRel (SlotEvol P) pm.each_slot pm2.each_slot
  | [], pm, pm2, h, _ => by
    obtain rfl := Except.ok.inj h
    exact SlotsRel.self (slotEvol_refl P) _
  | (i, jb) :: rest, pm, pm2, h, hP => by
    have hPi : P i := hP (i, jb) (by simp)
    have hPtail : ∀ p ∈ rest, P p.1 := fun p hp => hP p (List.mem_cons_of_mem _ hp)
    simp only [eachPhase] at h
    by_cases hE : jb.order = "E"
    · rw [if_pos hE] at h
      split at h
      case _ => exact absurd h (by simp)
      case _ l =>
        split at h
        · split at h
          case _ => exact absurd h (by simp)
          case _ nodes2 hacq =>
            exact evol_comp_helper hPi (acquireEachNumaNodes_rel hacq)
              (eachPhase_rel h hPtail)
        · split at h
          case _ => exact absurd h (by simp)
          case _ nodes2 hacq =>
            exact evol_comp_helper hPi (acquireEachNodeList_rel hacq)
              (eachPhase_rel h hPtail)
        · split at h
          case _ => exact absurd h (by simp)
          case _ nodes2 hacq =>
            exact evol_comp_helper hPi (acquireEachSlotNodes_rel hacq)
              (eachPhase_rel h hPtail)
        · exact absurd h (by simp)
    · rw [if_neg hE] at h
      exact eachPhase_rel h hPtail

theorem fixedPhase_rel {P : Nat → Prop} :
    ∀ {entries : List (Nat × JobEntry)} {pm pm2 : ProcMap},
      fixedPhase entries pm = .ok pm2 → (∀ p ∈ entries, P p.1) →
      SlotsRel (SlotEvol P) pm.each_slot pm2.each_slot
  | [], pm, pm2, h, _ => by
    obtain rfl := Except.ok.inj h
    exact SlotsRel.self (slotEvol_refl P) _
  | (i, jb) :: rest, pm, pm2, h, hP => by
    have hPi : P i := hP (i, jb) (by simp)
    have hPtail : ∀ p ∈ rest, P p.1 := fun p hp => hP p (List.mem_cons_of_mem _ hp)
    simp only [fixedPhase] at h
    by_cases hf : jb.order ≠ "A" ∧ jb.order ≠ "E"
    · rw [if_pos hf] at h
      split at h
      case _ => exact absurd h (by simp)
      case _ n hn =>
        split at h
        case _ => exact absurd h (by simp)
        case _ pm1 hmfds =>
          exact evol_comp_helper hPi (mfds_ok_props hmfds).1
            (fixedPhase_rel h hPtail)
    · rw [if_neg hf] at h
      exact fixedPhase_rel h hPtail

theorem allPhase_rel {P : Nat → Prop} {q r : Nat} :
    ∀ {entries : List (Nat × JobEntry)} {isFirst : Bool} {pm pm2 : ProcMap},
      allPhase q r entries isFirst pm = .ok pm2 → (∀ p ∈ entries, P p.1) →
      SlotsRel (SlotEvol P) pm.each_slot pm2.each_slot
  | [], _, pm, pm2, h, _ => by
    obtain rfl := Except.ok.inj h
    exact SlotsRel.self (slotEvol_refl P) _
  | (i, jb) :: rest, isFirst, pm, pm2, h, hP => by
    have hPi : P i := hP (i, jb) (by simp)
    have hPtail : ∀ p ∈ rest, P p.1 := fun p hp => hP p (List.mem_cons_of_mem _ hp)
    simp only [allPhase] at h
    by_cases hA : jb.order = "A"
    · rw [if_pos hA] at h
      split at h
      case _ => exact absurd h (by simp)
      case _ pm1 hmfds =>
        exact evol_comp_helper hPi (mfds_ok_props hmfds).1 (allPhase_rel h hPtail)
    · rw [if_neg hA] at h
      exact allPhase_rel h hPtail

/-- C9: (i) Slot::acquire fails exactly when the slot already carries an
assignment and otherwise records the job id; (ii) across a successful
ProcMap::map every slot either keeps its previous state or goes from free
to assigned to a valid zero-based JobEntry index — no assignment is ever
overwritten; (iii) hence from an all-free inventory every slot ends unset
or carrying a valid JobEntry index. -/
theorem c9_unique_assignment (pm pm2 : ProcMap) (jobs : List JobEntry)
    (hmap : pm.map jobs = .ok pm2) :
    (∀ (s : Slot) (j : Nat),
      (s.job.isSome = true → s.acquire j = .error .alreadyTaken) ∧
      (s.job = none → s.acquire j = .ok { s with job := some j })) ∧
    SlotsRel (SlotEvol (fun i => i < jobs.length)) pm.each_slot pm2.each_slot ∧
    ((∀ s ∈ pm.each_slot, s.job = none) →
      ∀ s2 ∈ pm2.each_slot, s2.job = none ∨ ∃ i, i < jobs.length ∧ s2.job = some i) := by
  have hPenum : ∀ p ∈ enumJobs 0 jobs, p.1 < jobs.length := by
    intro p hp
    have := enumJobs_mem_fst 0 jobs p hp
    omega
  have hrel : SlotsRel (SlotEvol (fun i => i < jobs.length))
      pm.each_slot pm2.each_slot := by
    simp only [ProcMap.map] at hmap
    split at hmap
    case _ => exact absurd hmap (by simp)
    case _ pma hpa =>
      split at hmap
      case _ => exact absurd hmap (by simp)
      case _ pmb hpb =>
        simp only [ProcMap.phase3] at hmap
        split at hmap
        case _ => exact absurd hmap (by simp)
        case _ k hk =>
          have h3 := allPhase_rel (P := fun i => i < jobs.length) hmap hPenum
          have h1 := eachPhase_rel (P := fun i => i < jobs.length) hpa hPenum
          have h2 := fixedPhase_rel (P := fun i => i < jobs.length) hpb hPenum
          exact SlotsRel.comp
            (R := SlotEvol (fun i => i < jobs.length))
            (S := SlotEvol (fun i => i < jobs.length))
            (T := SlotEvol (fun i => i < jobs.length))
            (fun _ _ _ hab hbc => slotEvol_trans hab hbc)
            (SlotsRel.comp
              (R := SlotEvol (fun i => i < jobs.length))
              (S := SlotEvol (fun i => i < jobs.length))
              (T := SlotEvol (fun i => i < jobs.length))
              (fun _ _ _ hab hbc => slotEvol_trans hab hbc) h1 h2) h3
  refine ⟨?_, hrel, ?_⟩
  · intro s j
    constructor
    · intro hs
      simp only [Slot.acquire, if_pos hs]
    · intro hs
      simp only [Slot.acquire]
      rw [if_neg (by simp [hs])]
  · intro hnone s2 hs2
    obtain ⟨s, hs, hrs⟩ := SlotsRel.mem_right hrel s2 hs2
    rcases hrs with rfl | ⟨hf, i, hi, rfl⟩
    · exact Or.inl (hnone s2 hs)
    · exact Or.inr ⟨i, hi, rfl⟩

/-- C9 witness: a one-free-slot inventory and a single "A" job — the solver
succeeds, and the instantiated contract holds. -/
theorem c9_witness :
    (∀ (s : Slot) (j : Nat),
      (s.job.isSome = true → s.acquire j = .error .alreadyTaken) ∧
      (s.job = none → s.acquire j = .ok { s with job := some j })) ∧
    SlotsRel (SlotEvol (fun i =>
        i < ([{ map := "A", order := "A", loc := none, command := ["w"] }]
          : List JobEntry).length))
      (ProcMap.each_slot { nodes := [{ host := "h1", numas := [{ id := 0, slots :=
        [{ rank := 0, pu := [0], job := none }] }] }] })
      (ProcMap.each_slot { nodes := [{ host := "h1", numas := [{ id := 0, slots :=
        [{ rank := 0, pu := [0], job := some 0 }] }] }] }) ∧
    ((∀ s ∈ ProcMap.each_slot { nodes := [{ host := "h1", numas := [{ id := 0, slots :=
        [{ rank := 0, pu := [0], job := none }] }] }] }, s.job = none) →
      ∀ s2 ∈ ProcMap.each_slot { nodes := [{ host := "h1", numas := [{ id := 0, slots :=
        [{ rank := 0, pu := [0], job := some 0 }] }] }] },
        s2.job = none ∨
          ∃ i, i < ([{ map := "A", order := "A", loc := none, command := ["w"] }] :
            List JobEntry).length ∧ s2.job = some i) :=
  c9_unique_assignment
    { nodes := [{ host := "h1", numas := [{ id := 0, slots :=
      [{ rank := 0, pu := [0], job := none }] }] }] }
    { nodes := [{ host := "h1", numas := [{ id := 0, slots :=
      [{ rank := 0, pu := [0], job := some 0 }] }] }] }
    [{ map := "A", order := "A", loc := none, command := ["w"] }]
    (by decide)
